import Mathlib

/-!
# Verification of the epubifyer document model and HTML pipeline

This file gives a shallow embedding of the epubifyer sources:

* the DOM-like tree (`DNode`) on which the sanitizer, serializer and
  image pipeline operate (the HTML parser itself is an external
  collaborator of the library);
* the sanitizer `cleanElement` from `src/src/test-tk-tag.ts` together
  with its allow-lists;
* the HTML→XHTML serializer `convertHtmlToXhtml` / `processNode` /
  `fixText` / `fixAttribute` from `src/unnamed/part_001`;
* the `Epub` class of `src/unnamed/part_004`: `addChapter`, `addCover`,
  `addImage`, `addCSS`, `generateOPF`, `generateNav`, `generate`, and
  its image pipeline `imageProcessing`;

and proves or refutes the frozen specification claims about them.
-/

/-- A DOM node as produced by the HTML parser collaborator: either a text
node or an element with a tag name, an ordered attribute list and an
ordered child list.  Attribute order models the DOM attribute list; real
documents have distinct attribute names. -/
inductive DNode where
  | text (data : String)
  | elem (tag : String) (attrs : List (String × String)) (children : List DNode)
deriving Repr

/-- Content of a manifest item: XHTML/CSS text or binary image data
(`string | Uint8Array` in `src/src/test-tk-tag.ts` types). -/
inductive EpubContent where
  | str (s : String)
  | bin (b : List Nat)
deriving Repr, DecidableEq

/-- `EpubItem` from the types section of `src/src/test-tk-tag.ts`. -/
structure EpubItem where
  id : String
  href : String
  mediaType : String
  properties : Option String
  content : EpubContent
deriving Repr, DecidableEq

/-- `NavPoint` from the types section of `src/src/test-tk-tag.ts`; a missing
`children` field is modelled as the empty list (the code only distinguishes
`undefined` from `[]` when rendering, where both produce no sublist for
empty content, and `addToParentNavPoint` materialises `[]` on demand). -/
structure NavPoint where
  id : String
  label : String
  content : String
  children : List NavPoint
deriving Repr

/-- `EpubMetadata` from the types section of `src/src/test-tk-tag.ts`.
The constructor of `Epub` always seeds `title`, `creator`, `language`,
`identifier`, `date` and `tags`, so those are total here. -/
structure EpubMetadata where
  title : String
  creator : String
  language : String
  identifier : String
  date : String
  publisher : Option String
  description : Option String
  rights : Option String
  cover : Option String
  tags : List String
deriving Repr

/-- The private mutable fields of the `Epub` class in `src/unnamed/part_004`. -/
structure EpubState where
  metadata : EpubMetadata
  items : List EpubItem
  spine : List String
  toc : List NavPoint
  cssFiles : List String
  uniqueIdCount : Nat
deriving Repr

/-- `s.startsWith pre`, character-list based (kernel-computable). -/
def jsStartsWith (pre s : String) : Bool := pre.data.isPrefixOf s.data

/-- `s.endsWith suf`, character-list based. -/
def jsEndsWith (suf s : String) : Bool := suf.data.isSuffixOf s.data

/-- `tagName.toLowerCase()` as used throughout the sources; character-wise
ASCII lowercasing (tag and attribute names in scope are ASCII). -/
def jsToLower (s : String) : String := String.mk (s.data.map Char.toLower)

/-! ## Sanitizer allow-lists (`preprocessHtmlWithDenoDom`, src/src/test-tk-tag.ts) -/

/-- `allowedElements` set from `src/src/test-tk-tag.ts`. -/
def allowedElementsL : List String :=
  ["html", "head", "body", "meta",
   "section", "nav", "article", "aside", "h1", "h2", "h3", "h4", "h5", "h6",
   "header", "footer", "address",
   "p", "hr", "pre", "blockquote", "ol", "ul", "li", "dl", "dt", "dd",
   "figure", "figcaption", "main", "div",
   "a", "abbr", "area", "audio", "b", "bdi", "bdo", "br", "button", "canvas",
   "cite", "code", "data", "datalist", "del", "dfn", "em", "embed", "i",
   "iframe", "img", "input", "ins", "kbd", "label", "link", "map", "mark",
   "meter", "object", "output", "picture", "progress", "q", "ruby", "s",
   "samp", "script", "select", "slot", "small", "span", "strong", "sub",
   "sup", "template", "textarea", "time", "u", "var", "video", "wbr",
   "table", "caption", "colgroup", "col", "tbody", "thead", "tfoot", "tr",
   "td", "th",
   "form", "fieldset", "legend", "optgroup", "option",
   "epub:switch"]

/-- `allowedGlobalAttrs` set from `src/src/test-tk-tag.ts`. -/
def allowedGlobalAttrsL : List String :=
  ["id", "class", "lang", "xml:lang", "dir", "title", "style", "epub:type",
   "role", "aria-label", "aria-hidden", "tabindex"]

/-- `allowedByTag` record from `src/src/test-tk-tag.ts`. -/
def allowedByTag (tag : String) : List String :=
  if tag = "a" then ["href", "target", "rel", "download", "hreflang", "type", "ping"]
  else if tag = "img" then ["src", "alt", "width", "height", "loading", "decoding", "crossorigin"]
  else if tag = "link" then ["href", "rel", "type", "media", "sizes", "crossorigin"]
  else if tag = "meta" then ["name", "content", "http-equiv", "charset"]
  else if tag = "script" then ["src", "type", "async", "defer", "crossorigin"]
  else if tag = "input" then ["type", "name", "value", "checked", "placeholder", "readonly", "disabled", "required"]
  else if tag = "button" then ["type", "name", "value", "disabled", "form"]
  else if tag = "form" then ["action", "method", "enctype", "name", "target", "novalidate"]
  else if tag = "iframe" then ["src", "srcdoc", "name", "sandbox", "allow", "allowfullscreen", "loading"]
  else []

/-- Element allow-list membership (`allowedElements.has(tag)`). -/
def allowedElementB (tag : String) : Bool := allowedElementsL.contains tag

/-- Attribute admission test of `cleanElement`:
`allowedGlobalAttrs.has(name) || name.startsWith("data-") ||
(allowedByTag[tag] && allowedByTag[tag].includes(name))`. -/
def attrAllowedB (tag name : String) : Bool :=
  allowedGlobalAttrsL.contains name || jsStartsWith "data-" name ||
    (allowedByTag tag).contains name

/-! ## The sanitizer `cleanElement`

`cleanElement` (src/src/test-tk-tag.ts, lines 229–300) mutates the parsed
document in place.  Its functional meaning per node:

* non-element nodes are left in place;
* an element whose lower-cased tag is not allow-listed and which has
  children is replaced by a `span` with `class="converted-<tag>"` holding
  all its children, and those children are then cleaned by iterating the
  span's **live** `childNodes` list (`for (const child of span.childNodes)`,
  written without a snapshot spread, unlike the other two loops) — when a
  child is removed, the list shifts and the iterator skips the next child;
* such an element without children is removed;
* an allow-listed element keeps only admitted attributes and its children
  are cleaned over a snapshot (`[...el.childNodes]`), where in-place
  replacement keeps positions and removal deletes the node.

`cleanNode` returns `none` when the node is removed. -/
mutual

def cleanNode : DNode → Option DNode
  | .text s => some (.text s)
  | .elem tag attrs cs =>
    let t := jsToLower tag
    if allowedElementB t then
      some (.elem tag (attrs.filter fun a => attrAllowedB t a.1) (snapClean cs))
    else if cs.isEmpty then
      none
    else
      some (.elem "span" [("class", "converted-" ++ t)] (liveClean cs))
termination_by structural n => n

/-- Cleaning over a snapshot of the child list: every original child is
visited; removal drops it, replacement substitutes in place. -/
def snapClean : List DNode → List DNode
  | [] => []
  | x :: xs =>
    match cleanNode x with
    | some y => y :: snapClean xs
    | none => snapClean xs
termination_by structural l => l

/-- Cleaning by iterating the live child list: after a removal the
element that slid into the freed position is skipped by the iterator
(`liveSkip`). -/
def liveClean : List DNode → List DNode
  | [] => []
  | x :: xs =>
    match cleanNode x with
    | some y => y :: liveClean xs
    | none => liveSkip xs
termination_by structural l => l

/-- The element after a removed child is emitted uncleaned; iteration
resumes beyond it. -/
def liveSkip : List DNode → List DNode
  | [] => []
  | z :: rest => z :: liveClean rest
termination_by structural l => l

end

/-- The top-level sanitizer loop over the body's children
(`for (const node of [...doc.body.childNodes]) cleanElement(node)`). -/
def cleanBody (cs : List DNode) : List DNode := snapClean cs

/-! Predicates about sanitized output. -/

mutual

/-- A tree is fully clean when every element's lower-cased tag is in the
element allow-list and every attribute passes that tag's admission test. -/
def allCleanB : DNode → Bool
  | .text _ => true
  | .elem tag attrs cs =>
    allowedElementB (jsToLower tag) &&
      attrs.all (fun a => attrAllowedB (jsToLower tag) a.1) && allCleanLB cs
termination_by structural n => n

def allCleanLB : List DNode → Bool
  | [] => true
  | x :: xs => allCleanB x && allCleanLB xs
termination_by structural l => l

end

mutual

/-- Input condition for the amended sanitizer invariant: the tree contains
no childless element outside the allow-list (these are exactly the nodes
the sanitizer removes, and removal is what makes the live iteration of a
replacement span's children skip a sibling). -/
def goodN : DNode → Bool
  | .text _ => true
  | .elem tag _ cs => (allowedElementB (jsToLower tag) || !cs.isEmpty) && goodL cs
termination_by structural n => n

def goodL : List DNode → Bool
  | [] => true
  | x :: xs => goodN x && goodL xs
termination_by structural l => l

end

/-! ## HTML→XHTML serializer (`convertHtmlToXhtml`, src/unnamed/part_001 lines 48–126)

`fixText` and `fixAttribute` are chains of global string replacements; we
model each `replace` pass separately, on character lists. -/

/-- `replace(/\n{2,}/g, "\n")`: collapse each run of two or more newlines
into a single newline (equivalently: keep the first newline of every run
and drop the following ones; the flag records whether the previous
character was a newline). -/
def collapseNLAux : Bool → List Char → List Char
  | _, [] => []
  | true, '\n' :: rest => collapseNLAux true rest
  | false, '\n' :: rest => '\n' :: collapseNLAux true rest
  | _, c :: rest => c :: collapseNLAux false rest

def collapseNL (l : List Char) : List Char := collapseNLAux false l

/-- ASCII letter test, `[a-zA-Z]` in the entity lookahead. -/
def isAsciiLetter (c : Char) : Bool :=
  ('a' ≤ c && c ≤ 'z') || ('A' ≤ c && c ≤ 'Z')

/-- `#[0-9]+;` branch of the lookahead (after the `#`). -/
def digitsThenSemi (l : List Char) : Bool :=
  match l.dropWhile Char.isDigit with
  | ';' :: _ => !(l.takeWhile Char.isDigit).isEmpty
  | _ => false

/-- `[a-zA-Z]+;` branch of the lookahead. -/
def lettersThenSemi (l : List Char) : Bool :=
  match l.dropWhile isAsciiLetter with
  | ';' :: _ => !(l.takeWhile isAsciiLetter).isEmpty
  | _ => false

/-- The lookahead `(?=([a-zA-Z]+|#[0-9]+);)` applied to the characters
following an ampersand. -/
def entityAhead : List Char → Bool
  | '#' :: rest => digitsThenSemi rest
  | l => lettersThenSemi l

/-- `replace(/&(?!([a-zA-Z]+|#[0-9]+);)/g, "&amp;")`: escape each bare
ampersand, leaving ampersands that start a named or numeric entity. -/
def escAmpText : List Char → List Char
  | [] => []
  | c :: rest =>
    if c = '&' then
      if entityAhead rest then '&' :: escAmpText rest
      else '&' :: 'a' :: 'm' :: 'p' :: ';' :: escAmpText rest
    else c :: escAmpText rest

/-- A global single-character replacement pass (`replace(/c/g, rep)`). -/
def replaceChar (target : Char) (rep : List Char) : List Char → List Char
  | [] => []
  | c :: rest => (if c = target then rep else [c]) ++ replaceChar target rep rest

/-- The non-breaking space character, ` `. -/
def nbspChar : Char := Char.ofNat 160

/-- `fixText` from src/unnamed/part_001: collapse newline runs, escape
bare `&`, then `<`, `>`, and non-breaking spaces, in that order. -/
def fixTextL (l : List Char) : List Char :=
  replaceChar nbspChar "&#160;".data
    (replaceChar '>' "&gt;".data
      (replaceChar '<' "&lt;".data
        (escAmpText (collapseNL l))))

/-- `fixAttribute` from src/unnamed/part_001: escape every `&`, then `<`,
`>`, `"`, and non-breaking spaces, in that order. -/
def fixAttributeL (l : List Char) : List Char :=
  replaceChar nbspChar "&#160;".data
    (replaceChar '"' "&quot;".data
      (replaceChar '>' "&gt;".data
        (replaceChar '<' "&lt;".data
          (replaceChar '&' "&amp;".data l))))

def fixText (s : String) : String := ⟨fixTextL s.data⟩

def fixAttribute (s : String) : String := ⟨fixAttributeL s.data⟩

/-- The void-element list of the self-closing test
`/^(area|base|br|col|embed|hr|img|input|link|meta|param|source|track|wbr)$/i`
(tags are lower-cased before the test, making the `i` flag moot). -/
def voidTags : List String :=
  ["area", "base", "br", "col", "embed", "hr", "img", "input", "link",
   "meta", "param", "source", "track", "wbr"]

def isVoidB (t : String) : Bool := voidTags.contains t

/-- One serialized attribute, ` name="escaped value"`. -/
def attrChunk (a : String × String) : String :=
  " " ++ a.1 ++ "=\"" ++ fixAttribute a.2 ++ "\""

/-- All serialized attributes of an element, in attribute order. -/
def attrsString (attrs : List (String × String)) : String :=
  String.join (attrs.map attrChunk)

mutual

/-- `processNode` from src/unnamed/part_001: text nodes via `fixText`,
elements as `<tag attrs…>` with children and a closing tag, except void
elements which are emitted self-closed with neither children nor a
closing tag; other node kinds yield the empty string and do not occur in
this tree model. -/
def processNode : DNode → String
  | .text d => fixText d
  | .elem tag attrs cs =>
    let t := jsToLower tag
    let res := "<" ++ t ++ attrsString attrs
    if isVoidB t then res ++ " />"
    else res ++ ">" ++ processChildren cs ++ "</" ++ t ++ ">"
termination_by structural n => n

def processChildren : List DNode → String
  | [] => ""
  | x :: xs => processNode x ++ processChildren xs
termination_by structural l => l

end

/-- The tail of `convertHtmlToXhtml`: serialize each child of `body` and
join with newlines. -/
def convertTreeList (ts : List DNode) : String :=
  String.intercalate "\n" (ts.map processNode)


/-! ## The HTML parser collaborator (restricted model)

`convertHtmlToXhtml` is string→string: it parses its input with the DOM
parser collaborator (`@b-fuze/deno-dom`), which is imported, not part of
this repository, and then serializes the body's children with
`processNode`, joining top-level nodes with newlines.  To state and settle
string-level claims about `convertHtmlToXhtml` we therefore model the
parser, restricted to the well-formed fragments the serializer itself
emits. -/

/-- Characters admitted in tag and attribute names by the parser model:
lower-case ASCII letters, digits, `-` and `:` (the HTML parser lower-cases
names; every allow-listed tag and attribute fits this alphabet). -/
def isNameChar (c : Char) : Bool :=
  ('a' ≤ c && c ≤ 'z') || ('0' ≤ c && c ≤ '9') || c = '-' || c = ':'

/-- Modelled from the spec: entity decoding done by the HTML parser
collaborator, restricted to the entities the serializer emits
(`&amp;` `&lt;` `&gt;` `&quot;` `&#160;`); unknown sequences stay literal. -/
def decodeEnt : List Char → List Char
  | [] => []
  | '&' :: 'a' :: 'm' :: 'p' :: ';' :: rest2 => '&' :: decodeEnt rest2
  | '&' :: 'l' :: 't' :: ';' :: rest2 => '<' :: decodeEnt rest2
  | '&' :: 'g' :: 't' :: ';' :: rest2 => '>' :: decodeEnt rest2
  | '&' :: 'q' :: 'u' :: 'o' :: 't' :: ';' :: rest2 => '"' :: decodeEnt rest2
  | '&' :: '#' :: '1' :: '6' :: '0' :: ';' :: rest2 => nbspChar :: decodeEnt rest2
  | c :: rest => c :: decodeEnt rest

/-- Does a character list begin with `/`? -/
def startsSlash : List Char → Bool
  | '/' :: _ => true
  | _ => false

/-- Does a character list begin with `/>`? -/
def startsSlashGt : List Char → Bool
  | '/' :: '>' :: _ => true
  | _ => false

/-- Modelled from the spec: the attribute scanner of the HTML parser
collaborator on serialized attribute lists — repeatedly a space, a name,
`="`, a double-quote-free value, `"`; ends at `>` (returning `false` for
"self-closed") or ` />`/`/>` (returning `true`).  Fuel-indexed so the
model is structurally recursive. -/
def parseAttrsF : Nat → List Char → Option (List (String × String) × Bool × List Char)
  | 0, _ => none
  | Nat.succ fuel, l =>
    match l with
    | '>' :: rest => some ([], false, rest)
    | ' ' :: rest =>
      if startsSlashGt rest then some ([], true, rest.drop 2)
      else
        let nm := rest.takeWhile isNameChar
        if nm.isEmpty then none
        else
          match rest.dropWhile isNameChar with
          | '=' :: '"' :: rest2 =>
            let v := rest2.takeWhile (fun c => c ≠ '"')
            (match rest2.dropWhile (fun c => c ≠ '"') with
             | '"' :: rest3 =>
               (parseAttrsF fuel rest3).map fun r =>
                 ((String.mk nm, String.mk (decodeEnt v)) :: r.1, r.2.1, r.2.2)
             | _ => none)
          | _ => none
    | _ => none

/-- Modelled from the spec: the node scanner of the HTML parser
collaborator on well-formed fragments.  Parses a sequence of elements and
entity-encoded text runs, stopping at the end of input or before a
closing tag; elements carry their children up to a matching closing tag,
and void tags (with or without `/>`) are childless.  Returns the parsed
nodes and the unconsumed remainder. -/
def parseNodesF : Nat → List Char → Option (List DNode × List Char)
  | 0, _ => none
  | Nat.succ _, [] => some ([], [])
  | Nat.succ fuel, c :: rest =>
    if c = '<' then
      if startsSlash rest then some ([], c :: rest)
      else
        let nm := rest.takeWhile isNameChar
        if nm.isEmpty then none
        else
          match parseAttrsF (Nat.succ fuel) (rest.dropWhile isNameChar) with
          | none => none
          | some (attrs, sc, r1) =>
            if sc || isVoidB (String.mk nm) then
              match parseNodesF fuel r1 with
              | none => none
              | some (ns, r) => some (.elem (String.mk nm) attrs [] :: ns, r)
            else
              match parseNodesF fuel r1 with
              | none => none
              | some (cs, r2) =>
                match r2 with
                | '<' :: '/' :: r3 =>
                  if r3.takeWhile isNameChar = nm then
                    match r3.dropWhile isNameChar with
                    | '>' :: r4 =>
                      match parseNodesF fuel r4 with
                      | none => none
                      | some (ns, r) => some (.elem (String.mk nm) attrs cs :: ns, r)
                    | _ => none
                  else none
                | _ => none
    else
      let txt := (c :: rest).takeWhile (fun x => x ≠ '<')
      match parseNodesF fuel ((c :: rest).dropWhile (fun x => x ≠ '<')) with
      | none => none
      | some (ns, r) => some (.text (String.mk (decodeEnt txt)) :: ns, r)

/-- Modelled from the spec: `parse(htmlText) -> tree | null` — the body
children of the parsed fragment, defined when the restricted grammar
consumes the whole input. -/
def parseFragment (s : String) : Option (List DNode) :=
  match parseNodesF (s.data.length + 1) s.data with
  | some (ns, []) => some ns
  | _ => none

/-- `convertHtmlToXhtml` of src/unnamed/part_001: parse the input with the
DOM collaborator (modelled by `parseFragment`), serialize each body child
with `processNode` and join with newlines.  `none` models inputs outside
the restricted parser model (the real collaborator never returns null for
ordinary fragments). -/
def convertHtmlToXhtml (s : String) : Option String :=
  (parseFragment s).map convertTreeList

/-! ## JavaScript string helpers used by the Epub class -/

/-- `String.prototype.split` with a single-character separator. -/
def splitChar (sep : Char) : List Char → List (List Char)
  | [] => [[]]
  | c :: rest =>
    match splitChar sep rest with
    | h :: t => if c = sep then [] :: h :: t else (c :: h) :: t
    | [] => if c = sep then [[], []] else [[c]]

def jsSplit (sep : Char) (s : String) : List String :=
  (splitChar sep s.data).map String.mk

/-- JavaScript whitespace (`\s` and `trim`), restricted to the ASCII
whitespace characters plus the non-breaking space. -/
def isJsWs (c : Char) : Bool :=
  c = ' ' || c = '\t' || c = '\n' || c = '\r' ||
    c = Char.ofNat 11 || c = Char.ofNat 12 || c = nbspChar

/-- `String.prototype.trim`. -/
def jsTrim (s : String) : String :=
  String.mk (((s.data.dropWhile isJsWs).reverse.dropWhile isJsWs).reverse)

/-- Maximal non-whitespace tokens of a list, accumulator-based. -/
def wsTokensAux : List Char → List Char → List (List Char)
  | acc, [] => if acc.isEmpty then [] else [acc.reverse]
  | acc, c :: rest =>
    if isJsWs c then
      if acc.isEmpty then wsTokensAux [] rest else acc.reverse :: wsTokensAux [] rest
    else wsTokensAux (c :: acc) rest

/-- `trimmed.split(/\s+/)` for an already-trimmed string: the maximal
non-whitespace tokens, or `[""]` when the string is empty (JavaScript's
`"".split(/\s+/)` is `[""]`). -/
def jsSplitWsTrimmed (s : String) : List String :=
  if s.data.isEmpty then [""]
  else (wsTokensAux [] s.data).map String.mk

def digitsToNat (l : List Char) : Nat :=
  l.foldl (fun a c => a * 10 + (c.toNat - 48)) 0

/-- The leading decimal-digit run as a number; `none` when there is none. -/
def digitsPrefixNat (l : List Char) : Option Nat :=
  let ds := l.takeWhile Char.isDigit
  if ds.isEmpty then none else some (digitsToNat ds)

/-- `Number.parseInt(s)` in base 10: skip whitespace, optional sign,
leading digits; `none` models `NaN`. -/
def jsParseInt (s : String) : Option Int :=
  match s.data.dropWhile isJsWs with
  | '-' :: rest => (digitsPrefixNat rest).map (fun n => -(n : Int))
  | '+' :: rest => (digitsPrefixNat rest).map (fun n => (n : Int))
  | l => (digitsPrefixNat l).map (fun n => (n : Int))

/-! ## Collaborators (network fetch, URL parsing, base64, filesystem, HTML parsing)

These are the external collaborators of §6 of the spec; the class methods
receive them as an explicit oracle bundle. -/

/-- Outcome of `fetch` for chapter images: a successful response's bytes,
a non-ok response (`!response.ok`), or a thrown network error. -/
inductive FetchRes where
  | ok (bytes : List Nat)
  | httpError
  | netError
deriving Repr, DecidableEq

structure Collab where
  /-- `new URL(str)`: `some protocol` when the string parses, else `none`. -/
  tryURL : String → Option String
  /-- `fetch` for chapter images. -/
  fetchImage : String → FetchRes
  /-- `fetch` for the cover: `some (bytes, Content-Type header)` on a
  successful response, `none` for a network error or a non-ok response
  (both reach the caller as the same wrapped error). -/
  fetchCover : String → Option (List Nat × Option String)
  /-- `Buffer.from(payload, "base64")` (lenient Node decoding). -/
  b64 : String → List Nat
  /-- `Bun.file(path).arrayBuffer()`: `none` models a thrown read error. -/
  readFile : String → Option (List Nat)
  /-- The DOM parser applied to a chapter fragment, returning the body's
  child nodes (`none` models a null document). -/
  parse : String → Option (List DNode)

/-- `isurl` of src/unnamed/part_004: parse with `new URL` and accept the
`http:`, `https:` and `blob:` protocols. -/
def isurl (c : Collab) (s : String) : Bool :=
  match c.tryURL s with
  | some proto => ["http:", "https:", "blob:"].contains proto
  | none => false

/-! ## Media-type helpers (src/unnamed/part_004) -/

def getMediaTypeFromExt (ext : String) : String :=
  let e := jsToLower ext
  if e == "jpg" || e == "jpeg" then "image/jpeg"
  else if e == "png" then "image/png"
  else if e == "gif" then "image/gif"
  else if e == "svg" then "image/svg+xml"
  else if e == "webp" then "image/webp"
  else "application/octet-stream"

def getExtFromMediaType (mediaType : String) : String :=
  if mediaType == "image/jpeg" then "jpg"
  else if mediaType == "image/png" then "png"
  else if mediaType == "image/gif" then "gif"
  else if mediaType == "image/svg+xml" then "svg"
  else if mediaType == "image/webp" then "webp"
  else "img"

/-- `url.split(".").pop()?.split("?")[0] || "img"`. -/
def extFromUrl (url : String) : String :=
  let last := ((jsSplit '.' url).getLastD "")
  let e := ((jsSplit '?' last).headD "")
  if e = "" then "img" else e

/-! ## DOM attribute operations on the attribute list -/

def getAttr (attrs : List (String × String)) (name : String) : Option String :=
  (attrs.find? (fun a => a.1 == name)).map (fun a => a.2)

def removeAttrL (attrs : List (String × String)) (name : String) : List (String × String) :=
  attrs.filter (fun a => !(a.1 == name))

/-- `setAttribute`: update the value in place when present, else append. -/
def setAttrL (attrs : List (String × String)) (name val : String) : List (String × String) :=
  if attrs.any (fun a => a.1 == name) then
    attrs.map (fun a => if a.1 == name then (a.1, val) else a)
  else attrs ++ [(name, val)]

/-! ## The srcset selection (src/unnamed/part_004, lines 78–90) -/

structure SrcCand where
  url : String
  /-- `none` models the `NaN` that `parseInt` yields for digit-less
  descriptors ending in `w`. -/
  width : Option Int
deriving Repr, DecidableEq

/-- One comma-separated candidate: `const [url, size] = entry.trim().split(/\s+/)`;
width `parseInt(size)` when the descriptor ends in `w`, else `0`. -/
def candOfEntry (entry : String) : SrcCand :=
  let toks := jsSplitWsTrimmed (jsTrim entry)
  let url := toks.headD ""
  let width : Option Int :=
    match toks.drop 1 with
    | z :: _ => if jsEndsWith "w" z then jsParseInt z else some 0
    | [] => some 0
  ⟨url, width⟩

/-- May `a` stay in front of `b` under the comparator
`(a, b) => b.width - a.width`?  On two numbers this is `b.width ≤ a.width`;
a `NaN` comparator result is treated as `0` by the sort (ECMA-262
SortCompare), i.e. as "equal", so the stable sort keeps the original
order — modelled by `true`. -/
def candLe (a b : SrcCand) : Bool :=
  match a.width, b.width with
  | some x, some y => y ≤ x
  | _, _ => true

/-- Stable insertion of one candidate into a descending-sorted list. -/
def insertDesc (x : SrcCand) : List SrcCand → List SrcCand
  | [] => [x]
  | y :: ys => if candLe x y then x :: y :: ys else y :: insertDesc x ys

/-- `candidates.sort((a, b) => b.width - a.width)`: a stable descending
sort (JavaScript's sort is stable). -/
def sortCands : List SrcCand → List SrcCand
  | [] => []
  | x :: xs => insertDesc x (sortCands xs)

/-- The srcset branch: split on commas, build candidates, sort descending
by width, take the first url (`candidates[0]?.url || null`). -/
def chooseSrcset (srcset : String) : Option String :=
  let cands := (jsSplit ',' srcset).map candOfEntry
  match sortCands cands with
  | c :: _ => if c.url = "" then none else some c.url
  | [] => none

/-- The url the image loop settles on: the srcset winner when `srcset` is
present and non-empty (an empty attribute is falsy), else the `src`
attribute. -/
def chosenUrlOf (attrs : List (String × String)) : Option String :=
  let fromSrcset : Option String :=
    match getAttr attrs "srcset" with
    | some s => if s = "" then none else chooseSrcset s
    | none => none
  match fromSrcset with
  | some u => some u
  | none => getAttr attrs "src"

/-! ## The Epub document-model operations (src/unnamed/part_004) -/

/-- `addImage`: register binary content under `images/<filename>`, with
`properties = "cover-image"` exactly when the id equals the metadata's
current cover id. -/
def addImage (st : EpubState) (id filename : String) (data : EpubContent)
    (mediaType : String) : EpubState :=
  let properties := if st.metadata.cover = some id then some "cover-image" else none
  {st with items := st.items ++
    [{ id := id, href := "images/" ++ filename, mediaType := mediaType,
       properties := properties, content := data }]}

/-- `addCSS`: register text content under `styles/<id>.css` and remember
the href for later chapter shells. -/
def addCSS (st : EpubState) (id css : String) : EpubState :=
  {st with
    items := st.items ++
      [{ id := id, href := "styles/" ++ id ++ ".css", mediaType := "text/css",
         properties := none, content := .str css }],
    cssFiles := st.cssFiles ++ ["styles/" ++ id ++ ".css"]}

/-- `setMetadata` applies a partial update; modelled field-wise is not
needed by the claims, so the whole-record form suffices. -/
def setMetadata (st : EpubState) (m : EpubMetadata) : EpubState :=
  {st with metadata := m}

/-! ## The image pipeline `imageProcessing` (src/unnamed/part_004, lines 66–126) -/

/-- The body of the image loop for one `<img>`'s attribute list.  When the
chosen url passes `isurl`, fetch it: on success register the image,
rewrite `src`, drop `srcset` and strip `width`/`height`; a non-ok
response hits `continue` (skipping the per-image strip); a thrown network
error is swallowed and the strip still runs.  Non-url sources only get
the strip. -/
def procImgAttrs (c : Collab) (st : EpubState) (attrs : List (String × String)) :
    EpubState × List (String × String) :=
  let chosen := chosenUrlOf attrs
  let curl := chosen.getD ""
  if isurl c curl then
    match c.fetchImage curl with
    | .ok data =>
      let ext := extFromUrl curl
      let mediaType := getMediaTypeFromExt ext
      let cnt := st.uniqueIdCount + 1
      let id := "img_" ++ toString cnt ++ "." ++ ext
      let st1 := addImage {st with uniqueIdCount := cnt} id ("image_" ++ id) (.bin data) mediaType
      let attrs1 := removeAttrL (setAttrL attrs "src" ("../images/image_" ++ id)) "srcset"
      (st1, removeAttrL (removeAttrL attrs1 "width") "height")
    | .httpError => (st, attrs)
    | .netError => (st, removeAttrL (removeAttrL attrs "width") "height")
  else (st, removeAttrL (removeAttrL attrs "width") "height")

mutual

/-- The image loop over the parsed tree: `querySelectorAll("img")` yields
imgs in document order and each is processed in turn, threading the
mutable `Epub` state. -/
def procImgNode (c : Collab) (st : EpubState) : DNode → EpubState × DNode
  | .text s => (st, .text s)
  | .elem tag attrs cs =>
    if jsToLower tag = "img" then
      let r := procImgAttrs c st attrs
      let rc := procImgList c r.1 cs
      (rc.1, .elem tag r.2 rc.2)
    else
      let rc := procImgList c st cs
      (rc.1, .elem tag attrs rc.2)
termination_by structural n => n

def procImgList (c : Collab) (st : EpubState) : List DNode → EpubState × List DNode
  | [] => (st, [])
  | x :: xs =>
    let r := procImgNode c st x
    let rs := procImgList c r.1 xs
    (rs.1, r.2 :: rs.2)
termination_by structural l => l

end

mutual

/-- The second pass: `removeAttribute("width"/"height")` on every element
(`doc.querySelectorAll("*")`). -/
def removeWHNode : DNode → DNode
  | .text s => .text s
  | .elem tag attrs cs =>
    .elem tag (removeAttrL (removeAttrL attrs "width") "height") (removeWHList cs)
termination_by structural n => n

def removeWHList : List DNode → List DNode
  | [] => []
  | x :: xs => removeWHNode x :: removeWHList xs
termination_by structural l => l

end

/-- The tree-level composition of `imageProcessing` between parse and
serialization: the image loop, then the global width/height strip. -/
def imageProcessTrees (c : Collab) (st : EpubState) (ts : List DNode) :
    EpubState × List DNode :=
  let r := procImgList c st ts
  (r.1, removeWHList r.2)

/-- `imageProcessing`: parse the fragment (a null document returns the
input unchanged), run the image loop and the width/height strip, and
serialize the body children back to XHTML.  The intermediate
`body.innerHTML` string hand-off into `convertHtmlToXhtml`'s own reparse
is modelled as the identity on the processed tree (a round-trip through
the parser collaborator). -/
def imageProcessing (c : Collab) (st : EpubState) (html : String) :
    EpubState × String :=
  match c.parse html with
  | none => (st, html)
  | some body =>
    let r := imageProcessTrees c st body
    (r.1, convertTreeList r.2)

/-! ## `addCover` (src/unnamed/part_004, lines 141–204) -/

/-- Errors surfaced by `addCover` (§7 of the spec): a malformed `data:`
URI, a failed network fetch, a failed local read. -/
inductive CoverError where
  | invalidFormat
  | fetchFailed
  | fileReadFailed
deriving Repr, DecidableEq

/-- A JavaScript regular-expression line terminator. -/
def isLineTerm (ch : Char) : Bool :=
  ch = '\n' || ch = '\r' || ch = Char.ofNat 0x2028 || ch = Char.ofNat 0x2029

/-- The match `source.match(/^data:([^;]+);base64,(.+)$/)`: a non-empty
semicolon-free media type, the literal `;base64,`, and a non-empty
payload without line terminators. -/
def dataUriMatch (s : String) : Option (String × String) :=
  match s.data with
  | 'd' :: 'a' :: 't' :: 'a' :: ':' :: rest =>
    let mt := rest.takeWhile (fun ch => ch ≠ ';')
    if mt.isEmpty then none
    else
      match rest.dropWhile (fun ch => ch ≠ ';') with
      | ';' :: 'b' :: 'a' :: 's' :: 'e' :: '6' :: '4' :: ',' :: payload =>
        if payload.isEmpty || payload.any isLineTerm then none
        else some (String.mk mt, String.mk payload)
      | _ => none
  | _ => none

/-- Tail of `addCover` common to all branches: register the image under
the fixed id `cover-image`, then set `metadata.cover` to that id. -/
def finishCover (st : EpubState) (ext : String) (data : EpubContent)
    (mediaType : String) : EpubState × Except CoverError String :=
  let st1 := addImage st "cover-image" ("cover." ++ ext) data mediaType
  ({st1 with metadata := {st1.metadata with cover := some "cover-image"}},
   .ok "cover-image")

/-- Media type and extension for a fetched cover without a usable
`Content-Type`: extension from the url (`split(".").pop()?.split("?")[0] || "jpg"`),
media type from the extension. -/
def coverUrlFallback (source : String) : String × String :=
  let e0 := ((jsSplit '?' ((jsSplit '.' source).getLastD "")).headD "")
  let ext := if e0 = "" then "jpg" else e0
  (getMediaTypeFromExt ext, ext)

/-- `addCover`: dispatch on the source shape (`data:` URI, url, local
path).  Errors are raised before any state mutation; the pre-throw state
is returned alongside the error. -/
def addCover (c : Collab) (st : EpubState) (source : String) :
    EpubState × Except CoverError String :=
  if jsStartsWith "data:" source then
    match dataUriMatch source with
    | none => (st, .error .invalidFormat)
    | some (mt, payload) =>
      finishCover st (getExtFromMediaType mt) (.bin (c.b64 payload)) mt
  else if isurl c source then
    match c.fetchCover source with
    | none => (st, .error .fetchFailed)
    | some (bytes, contentType) =>
      let p : String × String :=
        match contentType with
        | some ct =>
          if jsStartsWith "image/" ct then (ct, getExtFromMediaType ct)
          else coverUrlFallback source
        | none => coverUrlFallback source
      finishCover st p.2 (.bin bytes) p.1
  else
    match c.readFile source with
    | none => (st, .error .fileReadFailed)
    | some bytes =>
      let ext0 := ((jsSplit '.' source).getLastD "")
      let ext := if ext0 = "" then "jpg" else ext0
      finishCover st ext (.bin bytes) (getMediaTypeFromExt ext)

/-! ## `addChapter` (src/unnamed/part_004, lines 213–287) -/

/-- The three runtime shapes of the `html` argument, detected in the
source by `Array.isArray` checks on the value and its first element (an
empty array necessarily takes the plain-array path, which coincides
below because sorting an empty list is trivial). -/
inductive ChapterInput where
  | single (html : String)
  | parts (l : List String)
  | orderedParts (l : List (Int × String))

/-- Stable ascending insertion by the numeric order key. -/
def insertAsc (x : Int × String) : List (Int × String) → List (Int × String)
  | [] => [x]
  | y :: ys => if x.1 ≤ y.1 then x :: y :: ys else y :: insertAsc x ys

/-- `html.slice().sort((a, b) => a[0] - b[0])`: a stable ascending sort
on the order key. -/
def sortPairs : List (Int × String) → List (Int × String)
  | [] => []
  | x :: xs => insertAsc x (sortPairs xs)

/-- Run `imageProcessing` over each part in order, threading the state
(the sequential `await` loop of the source). -/
def procFold (c : Collab) (st : EpubState) : List String → EpubState × List String
  | [] => (st, [])
  | h :: t =>
    let r := imageProcessing c st h
    let rs := procFold c r.1 t
    (rs.1, r.2 :: rs.2)

/-- `escapeXml` of the Epub class: escape bare `&` (same entity lookahead
as `fixText`), then `<` and `>`. -/
def escapeXml (s : String) : String :=
  String.mk (replaceChar '>' "&gt;".data (replaceChar '<' "&lt;".data (escAmpText s.data)))

/-- `partHtmls.length === 1 ? id : id_partN` (N is 1-based). -/
def partName (cid : String) (n i : Nat) : String :=
  if n = 1 then cid else cid ++ "_part" ++ toString i

/-- The XHTML document shell wrapped around part `i` of `n` (the template
literal at lines 254–266 of src/unnamed/part_004). -/
def chapterShell (meta : EpubMetadata) (cssFiles : List String) (title : String)
    (n i : Nat) (body : String) : String :=
  "<!DOCTYPE html>\n<html xmlns=\"http://www.w3.org/1999/xhtml\" xmlns:epub=\"http://www.idpf.org/2007/ops\" lang=\"" ++
    meta.language ++ "\">\n  <head>\n    <meta charset=\"UTF-8\"/>\n    <title>" ++
    escapeXml title ++ (if n > 1 then " (Part " ++ toString i ++ ")" else "") ++
    "</title>\n    " ++
    String.intercalate "\n    "
      (cssFiles.map fun css =>
        "<link rel=\"stylesheet\" type=\"text/css\" href=\"../" ++ css ++ "\"/>") ++
    "\n  </head>\n  <body>\n" ++ body ++ "\n  </body>\n</html>"

/-- The manifest item built for part `i` (1-based) of `n`. -/
def chapterItem (meta : EpubMetadata) (cssFiles : List String) (title cid : String)
    (n i : Nat) (body : String) : EpubItem :=
  { id := partName cid n i,
    href := "text/" ++ partName cid n i ++ ".xhtml",
    mediaType := "application/xhtml+xml",
    properties := none,
    content := .str (chapterShell meta cssFiles title n i body) }

/-- The state after the id-allocation step of `addChapter`
(the counter bump of the generated-id branch). -/
def chapterBase (st : EpubState) (id : String) : EpubState :=
  if id = "" then {st with uniqueIdCount := st.uniqueIdCount + 1} else st

/-- The chapter id `addChapter` settles on. -/
def chapterIdOf (st : EpubState) (id : String) : String :=
  if id = "" then "chapter_" ++ toString (st.uniqueIdCount + 1) else id

/-- `addChapter`: allocate the chapter id when none is given, normalize
the input to an ordered list of parts (sorting `[order, html]` tuples
ascending), pass each part through `imageProcessing` in order, then push
one item and one spine entry per part and a single TOC entry for the
first part, returning the first part's id.  For an empty part list the
source reads `partIds[0]`/`partHrefs[0]`, which are `undefined`; the
JavaScript `undefined` is modelled by the string `"undefined"` (its
template-literal rendering). -/
def addChapter (c : Collab) (st : EpubState) (title : String)
    (input : ChapterInput) (id : String) : EpubState × String :=
  let st0 := chapterBase st id
  let cid := chapterIdOf st id
  let parts : List String :=
    match input with
    | .single h => [h]
    | .parts l => l
    | .orderedParts l => (sortPairs l).map Prod.snd
  let r := procFold c st0 parts
  let st1 := r.1
  let phtmls := r.2
  let n := phtmls.length
  let pids := (List.range n).map fun i => partName cid n (i + 1)
  let chItems := (List.range n).map fun i =>
    chapterItem st1.metadata st1.cssFiles title cid n (i + 1) (phtmls.getD i "")
  let st2 := {st1 with items := st1.items ++ chItems, spine := st1.spine ++ pids}
  let first := pids.headD "undefined"
  let firstHref :=
    match pids with
    | [] => "undefined"
    | f :: _ => "text/" ++ f ++ ".xhtml"
  let st3 := {st2 with toc := st2.toc ++
    [{ id := first, label := title, content := firstHref, children := [] }]}
  (st3, first)

/-! ## The packager: OPF, navigation document, archive (src/unnamed/part_004) -/

/-- The XHTML items eligible for the spine
(`mediaType === "application/xhtml+xml" && id !== "nav"`). -/
def xhtmlItemsOf (st : EpubState) : List EpubItem :=
  st.items.filter fun it => it.mediaType == "application/xhtml+xml" && it.id != "nav"

/-- The idref sequence of the generated spine: Spine order filtered to
XHTML items when the Spine is non-empty, else all XHTML items in manifest
order; a final repair appends the first XHTML item when the result would
be empty although XHTML items exist. -/
def spineIdsOPF (st : EpubState) : List String :=
  let base :=
    if st.spine.length > 0 then
      st.spine.filter fun i => (xhtmlItemsOf st).any fun it => it.id == i
    else (xhtmlItemsOf st).map fun it => it.id
  if base.isEmpty then
    match xhtmlItemsOf st with
    | [] => base
    | x :: _ => base ++ [x.id]
  else base

def itemrefStr (id : String) : String := "<itemref idref=\"" ++ id ++ "\"/>"

def manifestItemStr (it : EpubItem) : String :=
  "<item id=\"" ++ it.id ++ "\" href=\"" ++ it.href ++ "\" media-type=\"" ++
    it.mediaType ++ "\"" ++
    (match it.properties with
     | some p => " properties=\"" ++ p ++ "\""
     | none => "") ++ "/>"

def navManifestStr : String :=
  "<item id=\"nav\" href=\"nav.xhtml\" media-type=\"application/xhtml+xml\" properties=\"nav\"/>"

/-- `generateOPF` (the `dcterms:modified` timestamp is passed in as `now`). -/
def generateOPF (st : EpubState) (now : String) : String :=
  let manifestItems := navManifestStr :: st.items.map manifestItemStr
  let spineItems := (spineIdsOPF st).map itemrefStr
  let tagsXml :=
    if st.metadata.tags.length > 0 then
      String.intercalate "\n    "
        (st.metadata.tags.map fun tag => "<dc:subject>" ++ escapeXml tag ++ "</dc:subject>")
    else ""
  "<?xml version=\"1.0\" encoding=\"UTF-8\"?>\n<package xmlns=\"http://www.idpf.org/2007/opf\" version=\"3.0\" unique-identifier=\"book-id\">\n  <metadata xmlns:dc=\"http://purl.org/dc/elements/1.1/\">\n    <dc:identifier id=\"book-id\">" ++
    st.metadata.identifier ++ "</dc:identifier>\n    <dc:title>" ++
    st.metadata.title ++ "</dc:title>\n    <dc:creator>" ++
    st.metadata.creator ++ "</dc:creator>\n    <dc:language>" ++
    st.metadata.language ++ "</dc:language>\n    <dc:date>" ++
    st.metadata.date ++ "</dc:date>\n    " ++
    (match st.metadata.publisher with
     | some x => "<dc:publisher>" ++ x ++ "</dc:publisher>"
     | none => "") ++ "\n    " ++
    (match st.metadata.description with
     | some x => "<dc:description>" ++ x ++ "</dc:description>"
     | none => "") ++ "\n    " ++
    (match st.metadata.rights with
     | some x => "<dc:rights>" ++ x ++ "</dc:rights>"
     | none => "") ++ "\n    " ++ tagsXml ++
    "\n    <meta property=\"dcterms:modified\">" ++ now ++ "</meta>\n    " ++
    (match st.metadata.cover with
     | some cv => "<meta name=\"cover\" content=\"" ++ cv ++ "\"/>"
     | none => "") ++
    "\n  </metadata>\n  <manifest>\n    " ++
    String.intercalate "\n    " manifestItems ++
    "\n  </manifest>\n  <spine>\n    " ++
    String.intercalate "\n    " spineItems ++
    "\n  </spine>\n</package>"

mutual

/-- One `<li>` of the navigation list; an absent `children` field renders
nothing (`np.children ? renderToc(np.children) : ""`), modelled by the
empty list. -/
def renderNavPoint : NavPoint → String
  | .mk _ label content children =>
    "\n          <li>\n            <a href=\"" ++ content ++ "\">" ++
      escapeXml label ++ "</a>\n            " ++
      (if children.isEmpty then ""
       else "<ol>\n        " ++ renderNavPoints children ++ "\n      </ol>") ++
      "\n          </li>\n        "
termination_by structural np => np

/-- `navPoints.map(...).join("")`: the concatenation of rendered points. -/
def renderNavPoints : List NavPoint → String
  | [] => ""
  | np :: nps => renderNavPoint np ++ renderNavPoints nps
termination_by structural l => l

end

/-- A rendered nested ordered list of navigation points. -/
def renderTocList (nps : List NavPoint) : String :=
  "<ol>\n        " ++ renderNavPoints nps ++ "\n      </ol>"

/-- The top-level `renderToc`: an empty TOC falls back to a single
`Start` link to the first XHTML content item, or a dead anchor when no
content item exists. -/
def renderToc (st : EpubState) (nps : List NavPoint) : String :=
  match nps with
  | [] =>
    match st.items.find? (fun it =>
        it.mediaType == "application/xhtml+xml" && it.id != "nav") with
    | some it => "<ol><li><a href=\"" ++ it.href ++ "\">Start</a></li></ol>"
    | none => "<ol><li><a href=\"#\">Start</a></li></ol>"
  | l => renderTocList l

/-- `generateNav`. -/
def generateNav (st : EpubState) : String :=
  "<?xml version=\"1.0\" encoding=\"UTF-8\"?>\n<!DOCTYPE html>\n<html xmlns=\"http://www.w3.org/1999/xhtml\" xmlns:epub=\"http://www.idpf.org/2007/ops\">\n<head>\n  <meta charset=\"UTF-8\" />\n  <title>Table of Contents</title>\n</head>\n<body>\n  <nav epub:type=\"toc\" id=\"toc\">\n    <h1>Table of Contents</h1>\n    " ++
    renderToc st st.toc ++ "\n  </nav>\n</body>\n</html>"

/-- One archive entry handed to the ZIP writer: a path, its content, the
compression option passed (`some "STORE"` forces stored/uncompressed),
and whether it is a directory entry created by `zip.folder`. -/
structure ZipEntry where
  path : String
  content : EpubContent
  compression : Option String
  isDir : Bool
deriving Repr, DecidableEq

/-- JavaScript `Set` iteration order: first occurrence wins. -/
def dedupAux (seen : List String) : List String → List String
  | [] => []
  | x :: xs =>
    if seen.contains x then dedupAux seen xs
    else x :: dedupAux (x :: seen) xs

def dedupKeepFirst (l : List String) : List String := dedupAux [] l

/-- `href.split("/")` minus the file name, re-joined; `none` when no
directory remains. -/
def dirOfHref (href : String) : Option String :=
  let parts := (jsSplit '/' href).dropLast
  if parts.length > 0 then some (String.intercalate "/" parts) else none

def containerXml : String :=
  "<?xml version=\"1.0\" encoding=\"UTF-8\"?>\n<container version=\"1.0\" xmlns=\"urn:oasis:names:tc:opendocument:xmlns:container\">\n  <rootfiles>\n    <rootfile full-path=\"EPUB/content.opf\" media-type=\"application/oebps-package+xml\"/>\n  </rootfiles>\n</container>"

/-- `generate`: the archive entry sequence — `mimetype` first (stored,
uncompressed, exact content), then `META-INF/container.xml`, the
navigation document, the OPF, the directory entries for the item paths,
and one entry per item under `EPUB/<href>`.  JSZip preserves the
insertion order of entries. -/
def generate (st : EpubState) (now : String) : List ZipEntry :=
  [{ path := "mimetype", content := .str "application/epub+zip",
     compression := some "STORE", isDir := false },
   { path := "META-INF/container.xml", content := .str containerXml,
     compression := none, isDir := false },
   { path := "EPUB/nav.xhtml", content := .str (generateNav st),
     compression := none, isDir := false },
   { path := "EPUB/content.opf", content := .str (generateOPF st now),
     compression := none, isDir := false }] ++
  (dedupKeepFirst (st.items.filterMap fun it => dirOfHref it.href)).map
    (fun d => { path := "EPUB/" ++ d, content := .str "", compression := none,
                isDir := true }) ++
  st.items.map fun it =>
    { path := "EPUB/" ++ it.href, content := it.content, compression := none,
      isDir := false }

/-! ## Example fixtures used by witnesses -/

def exMeta : EpubMetadata :=
  { title := "T", creator := "C", language := "en", identifier := "u",
    date := "2026-01-01", publisher := none, description := none,
    rights := none, cover := none, tags := [] }

/-- A freshly constructed document (the constructor with defaults). -/
def exState : EpubState :=
  { metadata := exMeta, items := [], spine := [], toc := [], cssFiles := [],
    uniqueIdCount := 0 }

/-- A collaborator bundle with no reachable network, an empty filesystem,
and the fragment parser model. -/
def exCollab : Collab :=
  { tryURL := fun _ => none, fetchImage := fun _ => .netError,
    fetchCover := fun _ => none, b64 := fun _ => [7], readFile := fun _ => none,
    parse := fun s => parseFragment s }

def exChapterItem : EpubItem :=
  { id := "c1", href := "text/c1.xhtml", mediaType := "application/xhtml+xml",
    properties := none, content := .str "x" }

/-- A document holding one XHTML chapter item. -/
def exStateChap : EpubState := {exState with items := [exChapterItem]}

/-! ## C8 — void elements are emitted self-closed -/

/-- C8: for every element whose lower-cased tag is a void tag (area, base,
br, col, embed, hr, img, input, link, meta, param, source, track, wbr),
the serializer emits exactly the self-closed form `<tag attrs />` — the
output coincides with that for the same element without children, so no
children and no separate closing tag are ever emitted, whichever input
form (`<br>`, `<br/>`, `<br></br>`) produced the element. -/
theorem void_elements_selfClosed (tag : String) (attrs : List (String × String))
    (cs : List DNode) (h : isVoidB (jsToLower tag) = true) :
    processNode (.elem tag attrs cs)
      = "<" ++ jsToLower tag ++ attrsString attrs ++ " />" ∧
    processNode (.elem tag attrs cs) = processNode (.elem tag attrs []) := by
  constructor
  · simp [processNode, h]
  · simp [processNode, h]

theorem void_elements_selfClosed_witness :
    processNode (DNode.elem "br" [] [DNode.text "x"]) = "<br />" ∧
    processNode (DNode.elem "br" [] [DNode.text "x"])
      = processNode (DNode.elem "br" [] []) := by
  have h := void_elements_selfClosed "br" [] [DNode.text "x"] (by decide)
  refine ⟨?_, h.2⟩
  rw [h.1]; rfl

/-! ## C5 — addCover rejects malformed data URIs without mutating -/

/-- C5: for every source starting with `data:` that does not match
`^data:([^;]+);base64,(.+)$`, `addCover` fails with the format error and
returns the document state unchanged — no item is registered and
`metadata.cover` is untouched (the throw happens before any mutation). -/
theorem addCover_dataUri_format_error (c : Collab) (st : EpubState)
    (source : String)
    (hd : jsStartsWith "data:" source = true)
    (hm : dataUriMatch source = none) :
    addCover c st source = (st, Except.error CoverError.invalidFormat) := by
  unfold addCover
  simp [hd, hm]

theorem addCover_dataUri_format_error_witness :
    addCover exCollab exState "data:image-pngAAAA"
      = (exState, Except.error CoverError.invalidFormat) :=
  addCover_dataUri_format_error exCollab exState "data:image-pngAAAA"
    (by decide) (by decide)

/-! ## C3 — archive layout of `generate` -/

/-- C3: for every document state the produced archive starts with the
`mimetype` entry — stored (compression `STORE`), content exactly
`application/epub+zip` — followed in order by `META-INF/container.xml`,
the navigation document and the OPF, and holds one entry per registered
item at `EPUB/<href>` with that item's content. -/
theorem generate_entry_layout (st : EpubState) (now : String) :
    (generate st now).head? = some
      { path := "mimetype", content := .str "application/epub+zip",
        compression := some "STORE", isDir := false } ∧
    (generate st now).take 4 =
      [{ path := "mimetype", content := .str "application/epub+zip",
         compression := some "STORE", isDir := false },
       { path := "META-INF/container.xml", content := .str containerXml,
         compression := none, isDir := false },
       { path := "EPUB/nav.xhtml", content := .str (generateNav st),
         compression := none, isDir := false },
       { path := "EPUB/content.opf", content := .str (generateOPF st now),
         compression := none, isDir := false }] ∧
    ∀ it ∈ st.items, ∃ e ∈ generate st now,
      e.path = "EPUB/" ++ it.href ∧ e.content = it.content ∧ e.isDir = false := by
  refine ⟨rfl, rfl, ?_⟩
  intro it hit
  refine ⟨{ path := "EPUB/" ++ it.href, content := it.content,
            compression := none, isDir := false }, ?_, rfl, rfl, rfl⟩
  unfold generate
  refine List.mem_append.mpr (Or.inr ?_)
  exact List.mem_map.mpr ⟨it, hit, rfl⟩

theorem generate_entry_layout_witness :
    ((generate exStateChap "now").head? = some
      { path := "mimetype", content := .str "application/epub+zip",
        compression := some "STORE", isDir := false }) ∧
    ∃ e ∈ generate exStateChap "now",
      e.path = "EPUB/" ++ exChapterItem.href ∧
      e.content = exChapterItem.content ∧ e.isDir = false := by
  have h := generate_entry_layout exStateChap "now"
  exact ⟨h.1, h.2.2 exChapterItem (by decide)⟩

/-! ## C6 — the OPF spine -/

/-- C6: for every document state the OPF spine idrefs follow Spine order
filtered to XHTML-typed items when the Spine is non-empty (and that
filter is non-empty); with an empty Spine they fall back to all XHTML
items in manifest order (nav excluded); and the spine is non-empty
whenever at least one XHTML item exists (the packaging-time repair). -/
theorem opf_spine_follows (st : EpubState) :
    (st.spine = [] →
      spineIdsOPF st = (xhtmlItemsOf st).map fun it => it.id) ∧
    (st.spine ≠ [] →
      (st.spine.filter fun i => (xhtmlItemsOf st).any fun it => it.id == i) ≠ [] →
      spineIdsOPF st
        = st.spine.filter fun i => (xhtmlItemsOf st).any fun it => it.id == i) ∧
    (xhtmlItemsOf st ≠ [] → spineIdsOPF st ≠ []) := by
  refine ⟨?_, ?_, ?_⟩
  · intro hs
    unfold spineIdsOPF
    rw [hs]
    simp only [List.length_nil, lt_irrefl, if_false]
    cases hx : xhtmlItemsOf st with
    | nil => simp
    | cons x xs => simp [hx]
  · intro hs hf
    unfold spineIdsOPF
    have hlen : st.spine.length > 0 := List.length_pos.mpr hs
    simp only [hlen, if_true]
    rw [if_neg]
    simpa [List.isEmpty_iff] using hf
  · intro hx
    unfold spineIdsOPF
    obtain ⟨x, xs, hxs⟩ : ∃ x xs, xhtmlItemsOf st = x :: xs := by
      cases h : xhtmlItemsOf st with
      | nil => exact absurd h hx
      | cons a as => exact ⟨a, as, rfl⟩
    by_cases hb : (if st.spine.length > 0 then
        st.spine.filter fun i => (xhtmlItemsOf st).any fun it => it.id == i
      else (xhtmlItemsOf st).map fun it => it.id).isEmpty
    · rw [if_pos hb, hxs]
      simp
    · rw [if_neg hb]
      simpa [List.isEmpty_iff] using hb

theorem opf_spine_follows_witness :
    spineIdsOPF exStateChap = ["c1"] ∧
    spineIdsOPF {exStateChap with spine := ["c1"]} = ["c1"] ∧
    spineIdsOPF {exStateChap with spine := ["c1"]} ≠ [] := by
  have h1 := (opf_spine_follows exStateChap).1 rfl
  have h2 := (opf_spine_follows {exStateChap with spine := ["c1"]}).2.1
    (by decide) (by decide)
  have h3 := (opf_spine_follows {exStateChap with spine := ["c1"]}).2.2
    (by decide)
  refine ⟨?_, ?_, h3⟩
  · rw [h1]; decide
  · rw [h2]; decide

/-! ## C10 — the cover item gets no `properties`, only later `addImage` would -/

/-- `finishCover` on a document whose cover id is not yet set appends an
item without `properties` and only then points `metadata.cover` at the
fixed cover id. -/
theorem finishCover_ok (st : EpubState) (ext : String) (data : EpubContent)
    (mt : String) (hcov : st.metadata.cover = none) :
    finishCover st ext data mt
      = ({st with
            items := st.items ++
              [{ id := "cover-image", href := "images/" ++ ("cover." ++ ext),
                 mediaType := mt, properties := none, content := data }],
            metadata := {st.metadata with cover := some "cover-image"}},
         Except.ok "cover-image") := by
  unfold finishCover addImage
  rw [hcov]
  simp

/-- C10: for every document whose `metadata.cover` was unset, a successful
`addCover` (any source branch) returns `"cover-image"` and registers the
cover item with `properties = none` — because `addImage` consults
`metadata.cover` before `addCover` assigns it — while `metadata.cover`
ends up `"cover-image"`; only a subsequent `addImage` whose id equals the
now-set cover id receives `properties = "cover-image"`. -/
theorem addCover_cover_property_timing (c : Collab) (st : EpubState)
    (source : String) (st2 : EpubState) (r : String)
    (hcov : st.metadata.cover = none)
    (hok : addCover c st source = (st2, Except.ok r)) :
    r = "cover-image" ∧
    (∃ ext mt data, st2.items = st.items ++
      [{ id := "cover-image", href := "images/" ++ ("cover." ++ ext),
         mediaType := mt, properties := none, content := data }]) ∧
    st2.metadata.cover = some "cover-image" ∧
    (∀ fn d mty, ((addImage st2 "cover-image" fn d mty).items.getLast?).map
        (fun it => it.properties) = some (some "cover-image")) ∧
    (∀ i fn d mty, i ≠ "cover-image" →
      ((addImage st2 i fn d mty).items.getLast?).map (fun it => it.properties)
        = some none) := by
  have main : r = "cover-image" ∧
      (∃ ext mt data, st2.items = st.items ++
        [{ id := "cover-image", href := "images/" ++ ("cover." ++ ext),
           mediaType := mt, properties := none, content := data }]) ∧
      st2.metadata.cover = some "cover-image" := by
    unfold addCover at hok
    by_cases hd : jsStartsWith "data:" source
    · rw [if_pos hd] at hok
      cases hm : dataUriMatch source with
      | none =>
        rw [hm] at hok
        exact absurd (congrArg Prod.snd hok) (by simp)
      | some p =>
        obtain ⟨mt, payload⟩ := p
        rw [hm] at hok
        dsimp only at hok
        rw [finishCover_ok st _ _ _ hcov] at hok
        have h1 := congrArg Prod.fst hok
        have h2 := congrArg Prod.snd hok
        simp only [Prod.fst, Prod.snd] at h1 h2
        cases h2
        refine ⟨rfl, ⟨getExtFromMediaType mt, mt, .bin (c.b64 payload), ?_⟩, ?_⟩
        · rw [← h1]
        · rw [← h1]
    · rw [if_neg hd] at hok
      by_cases hu : isurl c source
      · rw [if_pos hu] at hok
        cases hfc : c.fetchCover source with
        | none =>
          rw [hfc] at hok
          exact absurd (congrArg Prod.snd hok) (by simp)
        | some q =>
          obtain ⟨bytes, contentType⟩ := q
          rw [hfc] at hok
          dsimp only at hok
          rw [finishCover_ok st _ _ _ hcov] at hok
          have h1 := congrArg Prod.fst hok
          have h2 := congrArg Prod.snd hok
          simp only [Prod.fst, Prod.snd] at h1 h2
          cases h2
          exact ⟨rfl, ⟨_, _, _, by rw [← h1]⟩, by rw [← h1]⟩
      · rw [if_neg hu] at hok
        cases hrf : c.readFile source with
        | none =>
          rw [hrf] at hok
          exact absurd (congrArg Prod.snd hok) (by simp)
        | some bytes =>
          rw [hrf] at hok
          dsimp only at hok
          rw [finishCover_ok st _ _ _ hcov] at hok
          have h1 := congrArg Prod.fst hok
          have h2 := congrArg Prod.snd hok
          simp only [Prod.fst, Prod.snd] at h1 h2
          cases h2
          exact ⟨rfl, ⟨_, _, _, by rw [← h1]⟩, by rw [← h1]⟩
  obtain ⟨hr, hitems, hcv⟩ := main
  refine ⟨hr, hitems, hcv, ?_, ?_⟩
  · intro fn d mty
    unfold addImage
    rw [hcv]
    simp
  · intro i fn d mty hi
    unfold addImage
    rw [hcv]
    rw [if_neg (by simpa using fun h => hi h.symm)]
    simp

theorem addCover_cover_property_timing_witness :
    ∃ st2, addCover exCollab exState "data:image/png;base64,AAAA"
        = (st2, Except.ok "cover-image") ∧
      st2.metadata.cover = some "cover-image" ∧
      ((addImage st2 "cover-image" "f" (.bin []) "image/png").items.getLast?).map
        (fun it => it.properties) = some (some "cover-image") := by
  refine ⟨(addCover exCollab exState "data:image/png;base64,AAAA").1, ?_⟩
  have happ : addCover exCollab exState "data:image/png;base64,AAAA"
      = ((addCover exCollab exState "data:image/png;base64,AAAA").1,
         Except.ok "cover-image") := by rfl
  have h := addCover_cover_property_timing exCollab exState
    "data:image/png;base64,AAAA" _ _ rfl happ
  exact ⟨happ, h.2.2.1, h.2.2.2.1 "f" (.bin []) "image/png"⟩

/-! ## C7 — srcset selection takes the largest width -/

theorem length_insertDesc (x : SrcCand) (l : List SrcCand) :
    (insertDesc x l).length = l.length + 1 := by
  induction l with
  | nil => rfl
  | cons y ys ih =>
    rw [insertDesc]
    by_cases h : candLe x y
    · rw [if_pos h]; rfl
    · rw [if_neg h]; simp [ih]

theorem length_sortCands (l : List SrcCand) :
    (sortCands l).length = l.length := by
  induction l with
  | nil => rfl
  | cons x xs ih => rw [sortCands, length_insertDesc, ih]; rfl

theorem mem_insertDesc {y x : SrcCand} {l : List SrcCand} :
    y ∈ insertDesc x l ↔ y = x ∨ y ∈ l := by
  induction l with
  | nil => simp [insertDesc]
  | cons z zs ih =>
    rw [insertDesc]
    by_cases h : candLe x z
    · rw [if_pos h]; simp
    · rw [if_neg h]
      simp only [List.mem_cons, ih]
      tauto

theorem mem_sortCands {y : SrcCand} {l : List SrcCand} :
    y ∈ sortCands l ↔ y ∈ l := by
  induction l with
  | nil => simp [sortCands]
  | cons x xs ih =>
    rw [sortCands]
    simp only [mem_insertDesc, ih, List.mem_cons]

theorem candLe_some {a b : SrcCand} {wa wb : Int}
    (ha : a.width = some wa) (hb : b.width = some wb) :
    candLe a b = true ↔ wb ≤ wa := by
  unfold candLe
  rw [ha, hb]
  simp

/-- The head of the sorted candidate list carries a maximal width (all
widths being numbers) and comes from the input list. -/
theorem sortCands_max (l : List SrcCand) (h : ∀ x ∈ l, x.width.isSome) :
    ∀ c rest, sortCands l = c :: rest →
      c ∈ l ∧ ∀ y ∈ l, y.width.getD 0 ≤ c.width.getD 0 := by
  induction l with
  | nil => intro c rest he; simp [sortCands] at he
  | cons x xs ih =>
    intro c rest he
    rw [sortCands] at he
    obtain ⟨wx, hwx⟩ := Option.isSome_iff_exists.mp (h x (List.mem_cons_self x xs))
    cases hs : sortCands xs with
    | nil =>
      rw [hs] at he
      have hxs : xs = [] := by
        have hl := length_sortCands xs
        rw [hs] at hl
        exact List.length_eq_zero.mp hl.symm
      subst hxs
      simp only [insertDesc] at he
      obtain ⟨rfl, -⟩ := List.cons.injEq .. ▸ he
      exact ⟨List.mem_cons_self _ _, by intro y hy; simp at hy; subst hy; exact le_refl _⟩
    | cons c' r' =>
      rw [hs] at he
      have hxsw : ∀ z ∈ xs, z.width.isSome :=
        fun z hz => h z (List.mem_cons_of_mem _ hz)
      have ihm := ih hxsw c' r' hs
      have hc'm : c' ∈ xs := ihm.1
      obtain ⟨wc, hwc⟩ := Option.isSome_iff_exists.mp (hxsw c' hc'm)
      rw [insertDesc] at he
      by_cases hc : candLe x c'
      · rw [if_pos hc] at he
        obtain ⟨rfl, -⟩ := List.cons.injEq .. ▸ he
        refine ⟨List.mem_cons_self _ _, ?_⟩
        intro y hy
        rcases List.mem_cons.mp hy with rfl | hy'
        · exact le_refl _
        · have h1 := ihm.2 y hy'
          have h2 : wc ≤ wx := (candLe_some hwx hwc).mp hc
          have : c'.width.getD 0 ≤ x.width.getD 0 := by
            rw [hwx, hwc]; simpa using h2
          exact le_trans h1 this
      · rw [if_neg hc] at he
        obtain ⟨rfl, -⟩ := List.cons.injEq .. ▸ he
        refine ⟨List.mem_cons_of_mem _ hc'm, ?_⟩
        intro y hy
        rcases List.mem_cons.mp hy with rfl | hy'
        · have h2 : ¬ wc ≤ wx := by
            intro hle
            exact hc ((candLe_some hwx hwc).mpr hle)
          have : wx ≤ wc := le_of_not_le h2
          rw [hwx, hwc]; simpa using this
        · exact ihm.2 y hy'

theorem splitChar_ne_nil (sep : Char) (l : List Char) : splitChar sep l ≠ [] := by
  cases l with
  | nil => simp [splitChar]
  | cons c rest =>
    rw [splitChar]
    cases h : splitChar sep rest with
    | nil => by_cases hc : c = sep <;> simp [hc]
    | cons a b => by_cases hc : c = sep <;> simp [hc]

/-- C7: whenever every parsed srcset candidate's width descriptor is
numeric (`parseInt` does not yield `NaN`) and every candidate has a
non-empty url, the pipeline selects a candidate of maximal numeric width
(descriptors not ending in `w` count as width 0 inside `candOfEntry`),
and that choice supersedes the element's `src` attribute. -/
theorem srcset_picks_max_width (s : String)
    (hw : ∀ cand ∈ (jsSplit ',' s).map candOfEntry, cand.width.isSome)
    (hu : ∀ cand ∈ (jsSplit ',' s).map candOfEntry, cand.url ≠ "") :
    (∃ cand ∈ (jsSplit ',' s).map candOfEntry,
        chooseSrcset s = some cand.url ∧
        ∀ c₂ ∈ (jsSplit ',' s).map candOfEntry,
          c₂.width.getD 0 ≤ cand.width.getD 0) ∧
    (∀ attrs, getAttr attrs "srcset" = some s → s ≠ "" →
      chosenUrlOf attrs = chooseSrcset s) := by
  have hne : (jsSplit ',' s).map candOfEntry ≠ [] := by
    intro hcontra
    have h1 : jsSplit ',' s = [] := List.map_eq_nil_iff.mp hcontra
    exact splitChar_ne_nil ',' s.data (by
      have := congrArg List.length h1
      simp [jsSplit] at this
      exact List.length_eq_zero.mp (by simpa using this))
  have hsne : sortCands ((jsSplit ',' s).map candOfEntry) ≠ [] := by
    intro hcontra
    have := length_sortCands ((jsSplit ',' s).map candOfEntry)
    rw [hcontra] at this
    exact hne (List.length_eq_zero.mp this.symm)
  obtain ⟨c, rest, hcr⟩ := List.exists_cons_of_ne_nil hsne
  have hmax := sortCands_max _ hw c rest hcr
  have hchoose : chooseSrcset s = some c.url := by
    unfold chooseSrcset
    dsimp only
    rw [hcr]
    dsimp only
    rw [if_neg (hu c hmax.1)]
  refine ⟨⟨c, hmax.1, hchoose, hmax.2⟩, ?_⟩
  intro attrs hsome hne'
  unfold chosenUrlOf
  rw [hsome]
  dsimp only
  rw [if_neg hne', hchoose]

theorem srcset_picks_max_width_witness :
    (∃ cand ∈ (jsSplit ',' "a.png 480w, b.png 800w").map candOfEntry,
        chooseSrcset "a.png 480w, b.png 800w" = some cand.url ∧
        ∀ c₂ ∈ (jsSplit ',' "a.png 480w, b.png 800w").map candOfEntry,
          c₂.width.getD 0 ≤ cand.width.getD 0) ∧
    chosenUrlOf [("src", "c.png"), ("srcset", "a.png 480w, b.png 800w")]
      = chooseSrcset "a.png 480w, b.png 800w" := by
  have h := srcset_picks_max_width "a.png 480w, b.png 800w"
    (by decide) (by decide)
  exact ⟨h.1, h.2 [("src", "c.png"), ("srcset", "a.png 480w, b.png 800w")]
    (by decide) (by decide)⟩

/-! ## C2 — multi-part chapters: groundwork -/

/-- A bundle of the `Epub` fields the image pipeline never touches. -/
def quietFields (st : EpubState) :
    List String × List NavPoint × List String × EpubMetadata :=
  (st.spine, st.toc, st.cssFiles, st.metadata)

theorem addImage_quiet (st : EpubState) (id fn : String) (d : EpubContent)
    (mt : String) : quietFields (addImage st id fn d mt) = quietFields st := by
  unfold addImage quietFields
  simp

theorem procImgAttrs_quiet (c : Collab) (st : EpubState)
    (attrs : List (String × String)) :
    quietFields (procImgAttrs c st attrs).1 = quietFields st := by
  unfold procImgAttrs
  by_cases h : isurl c ((chosenUrlOf attrs).getD "")
  · rw [if_pos h]
    cases hf : c.fetchImage ((chosenUrlOf attrs).getD "") with
    | ok data =>
      dsimp only
      rw [addImage_quiet]
      rfl
    | httpError => rfl
    | netError => rfl
  · rw [if_neg h]

mutual

theorem procImgNode_quiet (c : Collab) (st : EpubState) (n : DNode) :
    quietFields (procImgNode c st n).1 = quietFields st := by
  cases n with
  | text s => rfl
  | elem tag attrs cs =>
    rw [procImgNode]
    by_cases h : jsToLower tag = "img"
    · rw [if_pos h]
      dsimp only
      rw [procImgList_quiet c (procImgAttrs c st attrs).1 cs,
        procImgAttrs_quiet c st attrs]
    · rw [if_neg h]
      dsimp only
      rw [procImgList_quiet c st cs]
termination_by structural n

theorem procImgList_quiet (c : Collab) (st : EpubState) (l : List DNode) :
    quietFields (procImgList c st l).1 = quietFields st := by
  cases l with
  | nil => rfl
  | cons x xs =>
    rw [procImgList]
    dsimp only
    rw [procImgList_quiet c (procImgNode c st x).1 xs, procImgNode_quiet c st x]
termination_by structural l

end

theorem imageProcessing_quiet (c : Collab) (st : EpubState) (html : String) :
    quietFields (imageProcessing c st html).1 = quietFields st := by
  unfold imageProcessing imageProcessTrees
  cases hp : c.parse html with
  | none => rfl
  | some body =>
    dsimp only
    exact procImgList_quiet c st body

theorem procFold_quiet (c : Collab) (st : EpubState) (parts : List String) :
    quietFields (procFold c st parts).1 = quietFields st := by
  induction parts generalizing st with
  | nil => rfl
  | cons h t ih =>
    rw [procFold]
    dsimp only
    rw [ih (imageProcessing c st h).1, imageProcessing_quiet c st h]

theorem procFold_length (c : Collab) (st : EpubState) (parts : List String) :
    (procFold c st parts).2.length = parts.length := by
  induction parts generalizing st with
  | nil => rfl
  | cons h t ih =>
    rw [procFold]
    dsimp only
    rw [List.length_cons, ih (imageProcessing c st h).1]
    rfl

theorem insertAsc_perm (x : Int × String) (l : List (Int × String)) :
    List.Perm (insertAsc x l) (x :: l) := by
  induction l with
  | nil => rfl
  | cons y ys ih =>
    rw [insertAsc]
    by_cases h : x.1 ≤ y.1
    · rw [if_pos h]
    · rw [if_neg h]
      exact (ih.cons y).trans (List.Perm.swap x y ys)

theorem sortPairs_perm (l : List (Int × String)) : List.Perm (sortPairs l) l := by
  induction l with
  | nil => rfl
  | cons x xs ih =>
    rw [sortPairs]
    exact (insertAsc_perm x (sortPairs xs)).trans (ih.cons x)

theorem insertAsc_sorted (x : Int × String) (l : List (Int × String))
    (h : List.Pairwise (fun a b => a.1 ≤ b.1) l) :
    List.Pairwise (fun a b => a.1 ≤ b.1) (insertAsc x l) := by
  induction l with
  | nil => simp [insertAsc]
  | cons y ys ih =>
    rw [insertAsc]
    by_cases hxy : x.1 ≤ y.1
    · rw [if_pos hxy]
      refine List.Pairwise.cons ?_ h
      intro z hz
      rcases List.mem_cons.mp hz with rfl | hz'
      · exact hxy
      · exact le_trans hxy (List.rel_of_pairwise_cons h hz')
    · rw [if_neg hxy]
      have hyx : y.1 ≤ x.1 := le_of_not_le hxy
      refine List.Pairwise.cons ?_ (ih (List.Pairwise.of_cons h))
      intro z hz
      rcases List.mem_cons.mp ((insertAsc_perm x ys).mem_iff.mp hz) with rfl | hz'
      · exact hyx
      · exact List.rel_of_pairwise_cons h hz'

theorem sortPairs_sorted (l : List (Int × String)) :
    List.Pairwise (fun a b => a.1 ≤ b.1) (sortPairs l) := by
  induction l with
  | nil => exact List.Pairwise.nil
  | cons x xs ih =>
    rw [sortPairs]
    exact insertAsc_sorted x (sortPairs xs) ih

/-- C2: for every `addChapter(title, pairs, id?)` call with a non-empty
list of `(order, html)` pairs, the pairs are stably sorted ascending by
order before processing (sortedness and permutation below), each sorted
part is processed in order and becomes its own item (`id` alone for a
single part, `id_partN` otherwise) pushed onto the spine in part order,
exactly one TOC entry is appended pointing at the first part, and the
call returns the first part's id. -/
theorem addChapter_orderedParts (c : Collab) (st : EpubState) (title id : String)
    (l : List (Int × String)) (hl : l ≠ []) :
    List.Pairwise (fun a b => a.1 ≤ b.1) (sortPairs l) ∧
    List.Perm (sortPairs l) l ∧
    ∀ st1 phtmls,
      procFold c (chapterBase st id) ((sortPairs l).map Prod.snd) = (st1, phtmls) →
      (addChapter c st title (.orderedParts l) id).1.spine
          = st.spine ++ ((List.range l.length).map fun i =>
              partName (chapterIdOf st id) l.length (i + 1)) ∧
      (addChapter c st title (.orderedParts l) id).1.items
          = st1.items ++ ((List.range l.length).map fun i =>
              chapterItem st1.metadata st1.cssFiles title (chapterIdOf st id)
                l.length (i + 1) (phtmls.getD i "")) ∧
      (addChapter c st title (.orderedParts l) id).1.toc
          = st.toc ++ [{ id := partName (chapterIdOf st id) l.length 1,
                         label := title,
                         content := "text/" ++
                           partName (chapterIdOf st id) l.length 1 ++ ".xhtml",
                         children := [] }] ∧
      (addChapter c st title (.orderedParts l) id).2
          = partName (chapterIdOf st id) l.length 1 := by
  refine ⟨sortPairs_sorted l, sortPairs_perm l, ?_⟩
  intro st1 phtmls hpf
  have hq := procFold_quiet c (chapterBase st id) ((sortPairs l).map Prod.snd)
  rw [hpf] at hq
  have hspine : st1.spine = (chapterBase st id).spine :=
    congrArg (fun q => q.1) hq
  have htoc : st1.toc = (chapterBase st id).toc :=
    congrArg (fun q => q.2.1) hq
  have hbspine : (chapterBase st id).spine = st.spine := by
    unfold chapterBase; by_cases h : id = "" <;> simp [h]
  have hbtoc : (chapterBase st id).toc = st.toc := by
    unfold chapterBase; by_cases h : id = "" <;> simp [h]
  have hlen : phtmls.length = l.length := by
    have h1 := procFold_length c (chapterBase st id) ((sortPairs l).map Prod.snd)
    rw [hpf] at h1
    simpa [(sortPairs_perm l).length_eq] using h1
  obtain ⟨m, hm⟩ : ∃ m, l.length = m + 1 := by
    cases l with
    | nil => exact absurd rfl hl
    | cons a as => exact ⟨as.length, rfl⟩
  unfold addChapter
  dsimp only
  rw [hpf]
  dsimp only
  rw [hlen]
  refine ⟨?_, ?_, ?_, ?_⟩
  · rw [hspine, hbspine]
  · rfl
  · rw [htoc, hbtoc, hm]
    rw [List.range_succ_eq_map]
    simp
  · rw [hm, List.range_succ_eq_map]
    simp

theorem addChapter_orderedParts_witness :
    (addChapter exCollab exState "T"
        (.orderedParts [(2, "<p>b</p>"), (1, "<p>a</p>")]) "").1.spine
      = ["chapter_1_part1", "chapter_1_part2"] ∧
    (addChapter exCollab exState "T"
        (.orderedParts [(2, "<p>b</p>"), (1, "<p>a</p>")]) "").2
      = "chapter_1_part1" := by
  have h := addChapter_orderedParts exCollab exState "T" ""
    [(2, "<p>b</p>"), (1, "<p>a</p>")] (by decide)
  have h3 := h.2.2 _ _ rfl
  refine ⟨?_, ?_⟩
  · rw [h3.1]; decide
  · rw [h3.2.2.2]; decide

/-! ## C4 — a failed image fetch leaves the `src` attribute unchanged -/

mutual

/-- The `<img>` elements of a tree in document order
(`querySelectorAll("img")`). -/
def imgsOfNode : DNode → List DNode
  | .text _ => []
  | .elem tag attrs cs =>
    (if jsToLower tag = "img" then [.elem tag attrs cs] else []) ++ imgsOfList cs
termination_by structural n => n

def imgsOfList : List DNode → List DNode
  | [] => []
  | x :: xs => imgsOfNode x ++ imgsOfList xs
termination_by structural l => l

end

def attrsOf : DNode → List (String × String)
  | .text _ => []
  | .elem _ attrs _ => attrs

/-- The image loop's failure condition for one `<img>`: its chosen url is
remote (`isurl`) and the fetch either returns a non-ok response or throws
a network error. -/
def imgFetchFails (c : Collab) (n : DNode) : Prop :=
  isurl c ((chosenUrlOf (attrsOf n)).getD "") = true ∧
    (c.fetchImage ((chosenUrlOf (attrsOf n)).getD "") = .httpError ∨
     c.fetchImage ((chosenUrlOf (attrsOf n)).getD "") = .netError)

/-- Relation between an input `<img>` and its processed counterpart:
whenever the input's fetch fails, the `src` attribute is unchanged. -/
def keepsSrc (c : Collab) (a b : DNode) : Prop :=
  imgFetchFails c a → getAttr (attrsOf b) "src" = getAttr (attrsOf a) "src"

theorem getAttr_removeAttrL (attrs : List (String × String)) (n₁ n₂ : String)
    (h : n₁ ≠ n₂) : getAttr (removeAttrL attrs n₂) n₁ = getAttr attrs n₁ := by
  induction attrs with
  | nil => rfl
  | cons a rest ih =>
    unfold getAttr removeAttrL at ih ⊢
    by_cases h2 : a.1 = n₂
    · have hpa : (!(a.1 == n₂)) = false := by simp [h2]
      have h3 : ¬ ((a.1 == n₁) = true) := by
        simp only [beq_iff_eq]
        exact fun hc => h (hc.symm.trans h2)
      rw [List.filter_cons, hpa]
      simp only [Bool.false_eq_true, if_false]
      rw [show List.find? (fun x => x.1 == n₁) (a :: rest)
          = List.find? (fun x => x.1 == n₁) rest from
        List.find?_cons_of_neg rest h3]
      exact ih
    · have hpa : (!(a.1 == n₂)) = true := by simp [h2]
      rw [List.filter_cons, hpa, if_pos rfl]
      by_cases h3 : a.1 = n₁
      · rw [show List.find? (fun x => x.1 == n₁)
              (a :: List.filter (fun x => !(x.1 == n₂)) rest) = some a from
            List.find?_cons_of_pos _ (by simp [h3]),
          show List.find? (fun x => x.1 == n₁) (a :: rest) = some a from
            List.find?_cons_of_pos rest (by simp [h3])]
      · rw [show List.find? (fun x => x.1 == n₁)
              (a :: List.filter (fun x => !(x.1 == n₂)) rest)
              = List.find? (fun x => x.1 == n₁)
                  (List.filter (fun x => !(x.1 == n₂)) rest) from
            List.find?_cons_of_neg _ (by simp [h3]),
          show List.find? (fun x => x.1 == n₁) (a :: rest)
              = List.find? (fun x => x.1 == n₁) rest from
            List.find?_cons_of_neg rest (by simp [h3])]
        exact ih

/-- When the fetch of the chosen url does not succeed, the per-image step
leaves `src` untouched (it only possibly strips `width`/`height`). -/
theorem procImgAttrs_fail_src (c : Collab) (st : EpubState)
    (attrs : List (String × String))
    (hfail : c.fetchImage ((chosenUrlOf attrs).getD "") = .httpError ∨
      c.fetchImage ((chosenUrlOf attrs).getD "") = .netError) :
    getAttr (procImgAttrs c st attrs).2 "src" = getAttr attrs "src" := by
  unfold procImgAttrs
  by_cases h : isurl c ((chosenUrlOf attrs).getD "")
  · rw [if_pos h]
    rcases hfail with hf | hf
    · rw [hf]
    · rw [hf]
      dsimp only
      rw [getAttr_removeAttrL _ _ _ (by decide),
        getAttr_removeAttrL _ _ _ (by decide)]
  · rw [if_neg h]
    dsimp only
    rw [getAttr_removeAttrL _ _ _ (by decide),
      getAttr_removeAttrL _ _ _ (by decide)]

mutual

theorem procImgNode_keepsSrc (c : Collab) (st : EpubState) (n : DNode) :
    List.Forall₂ (keepsSrc c) (imgsOfNode n)
      (imgsOfNode (procImgNode c st n).2) := by
  cases n with
  | text s => exact List.Forall₂.nil
  | elem tag attrs cs =>
    rw [procImgNode]
    by_cases h : jsToLower tag = "img"
    · rw [if_pos h]
      dsimp only
      rw [imgsOfNode, imgsOfNode, if_pos h, if_pos h]
      refine List.Forall₂.cons ?_
        (procImgList_keepsSrc c (procImgAttrs c st attrs).1 cs)
      intro hfail
      exact procImgAttrs_fail_src c st attrs hfail.2
    · rw [if_neg h]
      dsimp only
      rw [imgsOfNode, imgsOfNode, if_neg h, if_neg h]
      simpa using procImgList_keepsSrc c st cs
termination_by structural n

theorem procImgList_keepsSrc (c : Collab) (st : EpubState) (l : List DNode) :
    List.Forall₂ (keepsSrc c) (imgsOfList l)
      (imgsOfList (procImgList c st l).2) := by
  cases l with
  | nil => exact List.Forall₂.nil
  | cons x xs =>
    rw [procImgList]
    dsimp only
    rw [imgsOfList, imgsOfList]
    exact List.rel_append (procImgNode_keepsSrc c st x)
      (procImgList_keepsSrc c (procImgNode c st x).1 xs)
termination_by structural l

end

/-- Pointwise: the width/height strip never touches `src`. -/
def srcEq (a b : DNode) : Prop :=
  getAttr (attrsOf b) "src" = getAttr (attrsOf a) "src"

mutual

theorem removeWHNode_srcEq (n : DNode) :
    List.Forall₂ srcEq (imgsOfNode n) (imgsOfNode (removeWHNode n)) := by
  cases n with
  | text s => exact List.Forall₂.nil
  | elem tag attrs cs =>
    rw [removeWHNode, imgsOfNode, imgsOfNode]
    by_cases h : jsToLower tag = "img"
    · rw [if_pos h, if_pos h]
      refine List.Forall₂.cons ?_ (removeWHList_srcEq cs)
      unfold srcEq attrsOf
      rw [getAttr_removeAttrL _ _ _ (by decide),
        getAttr_removeAttrL _ _ _ (by decide)]
    · rw [if_neg h, if_neg h]
      simpa using removeWHList_srcEq cs
termination_by structural n

theorem removeWHList_srcEq (l : List DNode) :
    List.Forall₂ srcEq (imgsOfList l) (imgsOfList (removeWHList l)) := by
  cases l with
  | nil => exact List.Forall₂.nil
  | cons x xs =>
    rw [removeWHList, imgsOfList, imgsOfList]
    exact List.rel_append (removeWHNode_srcEq x) (removeWHList_srcEq xs)
termination_by structural l

end

theorem forall₂_keepsSrc_srcEq (c : Collab) :
    ∀ {l₁ l₂ l₃ : List DNode}, List.Forall₂ (keepsSrc c) l₁ l₂ →
      List.Forall₂ srcEq l₂ l₃ → List.Forall₂ (keepsSrc c) l₁ l₃ := by
  intro l₁ l₂ l₃ h12 h23
  induction h12 generalizing l₃ with
  | nil =>
    cases h23
    exact List.Forall₂.nil
  | cons hr ht ih =>
    cases h23 with
    | cons hr2 ht2 =>
      exact List.Forall₂.cons (fun hf => (hr2).trans (hr hf)) (ih ht2)

/-- C4: for every parsed chapter fragment and every `<img>` in it whose
chosen remote url fails to fetch (non-ok response or network error), the
image pipeline emits the same number of `<img>` elements in the same
order and that element's `src` attribute is unchanged; no failure
escapes (the pipeline is total — fetch errors are swallowed by the
`try`/`catch` and `continue`). -/
theorem imageProcessing_fetch_failure_keeps_src (c : Collab) (st : EpubState)
    (ts : List DNode) :
    List.Forall₂ (fun a b => imgFetchFails c a →
        getAttr (attrsOf b) "src" = getAttr (attrsOf a) "src")
      (imgsOfList ts) (imgsOfList (imageProcessTrees c st ts).2) := by
  unfold imageProcessTrees
  dsimp only
  exact forall₂_keepsSrc_srcEq c (procImgList_keepsSrc c st ts)
    (removeWHList_srcEq (procImgList c st ts).2)

/-- A collaborator where `https://x/y.png` parses as a url but every
fetch throws a network error. -/
def exCollabFail : Collab :=
  { tryURL := fun s => if s = "https://x/y.png" then some "https:" else none,
    fetchImage := fun _ => .netError, fetchCover := fun _ => none,
    b64 := fun _ => [], readFile := fun _ => none,
    parse := fun s => parseFragment s }

theorem imageProcessing_fetch_failure_keeps_src_witness :
    ∃ b bs, imgsOfList (imageProcessTrees exCollabFail exState
        [DNode.elem "img" [("src", "https://x/y.png")] []]).2 = b :: bs ∧
      getAttr (attrsOf b) "src" = some "https://x/y.png" := by
  have h : List.Forall₂ (fun a b => imgFetchFails exCollabFail a →
        getAttr (attrsOf b) "src" = getAttr (attrsOf a) "src")
      [DNode.elem "img" [("src", "https://x/y.png")] []]
      (imgsOfList (imageProcessTrees exCollabFail exState
        [DNode.elem "img" [("src", "https://x/y.png")] []]).2) :=
    imageProcessing_fetch_failure_keeps_src exCollabFail exState
      [DNode.elem "img" [("src", "https://x/y.png")] []]
  cases h with
  | cons hr ht =>
    refine ⟨_, _, rfl, ?_⟩
    rw [hr ⟨by decide, Or.inr rfl⟩]
    decide

/-! ## C1 — the sanitizer allow-list invariant -/

theorem goodL_mem {l : List DNode} (h : goodL l = true) {x : DNode}
    (hx : x ∈ l) : goodN x = true := by
  induction l with
  | nil => cases hx
  | cons y ys ih =>
    rw [goodL] at h
    obtain ⟨h1, h2⟩ := Bool.and_eq_true_iff.mp h
    rcases List.mem_cons.mp hx with rfl | hx'
    · exact h1
    · exact ih h2 hx'

/-- A node satisfying the input condition is never removed by the
sanitizer. -/
theorem goodN_cleanNode_ne_none (n : DNode) (h : goodN n = true) :
    cleanNode n ≠ none := by
  cases n with
  | text s => simp [cleanNode]
  | elem tag attrs cs =>
    rw [cleanNode]
    by_cases ha : allowedElementB (jsToLower tag)
    · simp [ha]
    · rw [goodN] at h
      obtain ⟨h1, -⟩ := Bool.and_eq_true_iff.mp h
      have hne : cs.isEmpty = false := by
        rcases Bool.or_eq_true_iff.mp h1 with hc | hc
        · exact absurd hc ha
        · simpa using hc
      rw [if_neg (by simp [ha]), hne]
      simp

/-- With no removal in sight, live iteration visits every child. -/
theorem liveClean_eq_filterMap (l : List DNode)
    (h : ∀ x ∈ l, cleanNode x ≠ none) :
    liveClean l = l.filterMap cleanNode := by
  induction l with
  | nil => rfl
  | cons x xs ih =>
    rw [liveClean, List.filterMap_cons]
    cases hc : cleanNode x with
    | none => exact absurd hc (h x (List.mem_cons_self x xs))
    | some y => rw [ih fun z hz => h z (List.mem_cons_of_mem _ hz)]

theorem snapClean_eq_filterMap (l : List DNode) :
    snapClean l = l.filterMap cleanNode := by
  induction l with
  | nil => rfl
  | cons x xs ih =>
    rw [snapClean, List.filterMap_cons]
    cases hc : cleanNode x with
    | none => rw [ih]
    | some y => rw [ih]

mutual

/-- Under the input condition, every node the sanitizer keeps is fully
clean: allow-listed element, admitted attributes, clean children. -/
theorem cleanNode_allClean (n : DNode) (h : goodN n = true) :
    ∀ r, cleanNode n = some r → allCleanB r = true := by
  cases n with
  | text s =>
    intro r hr
    rw [cleanNode] at hr
    cases hr
    rfl
  | elem tag attrs cs =>
    intro r hr
    rw [goodN] at h
    obtain ⟨h1, h2⟩ := Bool.and_eq_true_iff.mp h
    rw [cleanNode] at hr
    by_cases ha : allowedElementB (jsToLower tag)
    · rw [if_pos (by simp [ha])] at hr
      cases hr
      rw [allCleanB]
      refine Bool.and_eq_true_iff.mpr ⟨Bool.and_eq_true_iff.mpr ⟨ha, ?_⟩, ?_⟩
      · rw [List.all_eq_true]
        intro a hafil
        exact (List.mem_filter.mp hafil).2
      · rw [snapClean_eq_filterMap]
        exact cleanList_allClean cs h2
    · have hne : cs.isEmpty = false := by
        rcases Bool.or_eq_true_iff.mp h1 with hc | hc
        · exact absurd hc ha
        · simpa using hc
      rw [if_neg (by simp [ha]), hne] at hr
      simp only [Bool.false_eq_true, if_false] at hr
      cases hr
      rw [allCleanB]
      refine Bool.and_eq_true_iff.mpr ⟨Bool.and_eq_true_iff.mpr ⟨by decide,
        by simp only [List.all_cons, List.all_nil, Bool.and_true]; decide⟩, ?_⟩
      rw [liveClean_eq_filterMap cs
        (fun x hx => goodN_cleanNode_ne_none x (goodL_mem h2 hx))]
      exact cleanList_allClean cs h2
termination_by structural n

theorem cleanList_allClean (l : List DNode) (h : goodL l = true) :
    allCleanLB (l.filterMap cleanNode) = true := by
  cases l with
  | nil => rfl
  | cons x xs =>
    rw [goodL] at h
    obtain ⟨h1, h2⟩ := Bool.and_eq_true_iff.mp h
    rw [List.filterMap_cons]
    cases hc : cleanNode x with
    | none => exact cleanList_allClean xs h2
    | some y =>
      rw [allCleanLB]
      exact Bool.and_eq_true_iff.mpr
        ⟨cleanNode_allClean x h1 y hc, cleanList_allClean xs h2⟩
termination_by structural l

end

/-- C1 (amended): the sanitizer honours its allow-lists on every input
that contains no childless disallowed element — the only nodes it
removes, whose removal makes the live iteration of a replacement span's
children skip the following sibling (see the counterexample).  Under
that condition: every kept node is fully clean; a childless disallowed
element is removed; a disallowed element with children becomes a
`span[class=converted-tag]` carrying all its children, cleaned, in their
original order. -/
theorem cleanElement_allowlist :
    (∀ n r, goodN n = true → cleanNode n = some r → allCleanB r = true) ∧
    (∀ tag attrs, allowedElementB (jsToLower tag) = false →
      cleanNode (.elem tag attrs []) = none) ∧
    (∀ tag attrs cs, allowedElementB (jsToLower tag) = false → cs ≠ [] →
      goodL cs = true →
      cleanNode (.elem tag attrs cs)
        = some (.elem "span" [("class", "converted-" ++ jsToLower tag)]
            (cs.filterMap cleanNode))) := by
  refine ⟨fun n r h hr => cleanNode_allClean n h r hr, ?_, ?_⟩
  · intro tag attrs ha
    rw [cleanNode]
    rw [if_neg (by simp [ha])]
    simp
  · intro tag attrs cs ha hcs hgood
    rw [cleanNode]
    rw [if_neg (by simp [ha])]
    have hne : cs.isEmpty = false := by
      cases cs with
      | nil => exact absurd rfl hcs
      | cons z zs => rfl
    rw [hne]
    simp only [Bool.false_eq_true, if_false]
    rw [liveClean_eq_filterMap cs
      (fun x hx => goodN_cleanNode_ne_none x (goodL_mem hgood hx))]

theorem cleanElement_allowlist_witness :
    allCleanB (DNode.elem "span" [("class", "converted-tk")] [DNode.text "x"])
      = true ∧
    cleanNode (DNode.elem "tk" [] []) = none ∧
    cleanNode (DNode.elem "tk" [] [DNode.text "x"])
      = some (DNode.elem "span" [("class", "converted-tk")] [DNode.text "x"]) := by
  have h := cleanElement_allowlist
  refine ⟨?_, h.2.1 "tk" [] (by decide), ?_⟩
  · exact h.1 (DNode.elem "tk" [] [DNode.text "x"])
      (DNode.elem "span" [("class", "converted-tk")] [DNode.text "x"])
      (by decide) (by rfl)
  · exact (h.2.2 "tk" [] [DNode.text "x"] (by decide) (by simp) (by decide)).trans
      (by rfl)

/-- C1 counterexample: inside the replacement span for `<tk>`, removing
the childless disallowed `<foo>` shifts the live child list, and the
iterator skips `<bar>` — which reaches the output uncleaned, violating
the claimed allow-list invariant. -/
theorem cleanElement_allowlist_counterexample :
    cleanBody [DNode.elem "tk" []
        [DNode.elem "foo" [] [], DNode.elem "bar" [] []]]
      = [DNode.elem "span" [("class", "converted-tk")]
          [DNode.elem "bar" [] []]] ∧
    allCleanLB (cleanBody [DNode.elem "tk" []
        [DNode.elem "foo" [] [], DNode.elem "bar" [] []]]) = false := by
  exact ⟨by rfl, by rfl⟩

/-! ## C9 — groundwork: characterizing the escape passes -/

/-- Concatenation of a character-wise expansion. -/
def concatMapC (f : Char → List Char) : List Char → List Char
  | [] => []
  | c :: rest => f c ++ concatMapC f rest

/-- The per-character effect of `fixText`'s escape passes on
ampersand-free input. -/
def textEscChar (ch : Char) : List Char :=
  if ch = '<' then "&lt;".data
  else if ch = '>' then "&gt;".data
  else if ch = nbspChar then "&#160;".data
  else [ch]

/-- The per-character effect of `fixAttribute`'s escape passes. -/
def attrEscChar (ch : Char) : List Char :=
  if ch = '&' then "&amp;".data
  else if ch = '<' then "&lt;".data
  else if ch = '>' then "&gt;".data
  else if ch = '"' then "&quot;".data
  else if ch = nbspChar then "&#160;".data
  else [ch]

theorem concatMapC_append (f : Char → List Char) (a b : List Char) :
    concatMapC f (a ++ b) = concatMapC f a ++ concatMapC f b := by
  induction a with
  | nil => rfl
  | cons c rest ih => simp [concatMapC, ih]

theorem concatMapC_congr {f g : Char → List Char} (h : ∀ c, f c = g c)
    (l : List Char) : concatMapC f l = concatMapC g l := by
  induction l with
  | nil => rfl
  | cons c rest ih => simp [concatMapC, h c, ih]

theorem replaceChar_append (t : Char) (rep a b : List Char) :
    replaceChar t rep (a ++ b) = replaceChar t rep a ++ replaceChar t rep b := by
  induction a with
  | nil => rfl
  | cons c rest ih => simp [replaceChar, ih]

theorem replaceChar_concatMapC (t : Char) (rep : List Char)
    (f : Char → List Char) (l : List Char) :
    replaceChar t rep (concatMapC f l)
      = concatMapC (fun c => replaceChar t rep (f c)) l := by
  induction l with
  | nil => rfl
  | cons c rest ih => simp [concatMapC, replaceChar_append, ih]

theorem replaceChar_eq_concatMapC (t : Char) (rep : List Char) (l : List Char) :
    replaceChar t rep l = concatMapC (fun c => if c = t then rep else [c]) l := by
  induction l with
  | nil => rfl
  | cons c rest ih => simp [replaceChar, concatMapC, ih]

theorem escAmpText_no_amp (l : List Char) (h : ∀ ch ∈ l, ch ≠ '&') :
    escAmpText l = l := by
  induction l with
  | nil => rfl
  | cons c rest ih =>
    rw [escAmpText, if_neg (h c (List.mem_cons_self c rest))]
    rw [ih fun ch hch => h ch (List.mem_cons_of_mem _ hch)]

theorem collapseNLAux_subset (l : List Char) :
    ∀ (b : Bool), ∀ x ∈ collapseNLAux b l, x ∈ l := by
  induction l with
  | nil => intro b x hx; cases b <;> cases hx
  | cons c rest ih =>
    intro b x hx
    by_cases hc : c = '\n'
    · subst hc
      cases b with
      | true =>
        rw [collapseNLAux] at hx
        exact List.mem_cons_of_mem _ (ih true x hx)
      | false =>
        rw [collapseNLAux] at hx
        rcases List.mem_cons.mp hx with rfl | hx'
        · exact List.mem_cons_self _ _
        · exact List.mem_cons_of_mem _ (ih true x hx')
    · have hstep : collapseNLAux b (c :: rest) = c :: collapseNLAux false rest := by
        cases b <;> simp [collapseNLAux, hc]
      rw [hstep] at hx
      rcases List.mem_cons.mp hx with rfl | hx'
      · exact List.mem_cons_self _ _
      · exact List.mem_cons_of_mem _ (ih false x hx')

theorem collapseNL_subset {d : List Char} {x : Char}
    (hx : x ∈ collapseNL d) : x ∈ d :=
  collapseNLAux_subset d false x hx

theorem textEsc_chain (c : Char) :
    replaceChar nbspChar "&#160;".data
      (replaceChar '>' "&gt;".data (if c = '<' then "&lt;".data else [c]))
      = textEscChar c := by
  by_cases h1 : c = '<'
  · subst h1; decide
  · rw [if_neg h1]
    by_cases h2 : c = '>'
    · subst h2
      unfold textEscChar
      decide
    · by_cases h3 : c = nbspChar
      · subst h3
        unfold textEscChar
        rw [if_neg h1, if_neg h2]
        decide
      · unfold textEscChar
        rw [if_neg h1, if_neg h2, if_neg h3]
        simp [replaceChar, h2, h3]

/-- On ampersand-free input, the escape passes of `fixText` compose to
the character-wise map `textEscChar` applied after newline collapsing. -/
theorem fixTextL_no_amp (d : List Char) (h : ∀ ch ∈ d, ch ≠ '&') :
    fixTextL d = concatMapC textEscChar (collapseNL d) := by
  unfold fixTextL
  rw [escAmpText_no_amp _ fun ch hch => h ch (collapseNL_subset hch)]
  rw [replaceChar_eq_concatMapC '<' "&lt;".data (collapseNL d)]
  rw [replaceChar_concatMapC, replaceChar_concatMapC]
  exact concatMapC_congr textEsc_chain (collapseNL d)

theorem attrEsc_chain (c : Char) :
    replaceChar nbspChar "&#160;".data
      (replaceChar '"' "&quot;".data
        (replaceChar '>' "&gt;".data
          (replaceChar '<' "&lt;".data
            (if c = '&' then "&amp;".data else [c]))))
      = attrEscChar c := by
  by_cases h1 : c = '&'
  · subst h1; decide
  · rw [if_neg h1]
    by_cases h2 : c = '<'
    · subst h2
      unfold attrEscChar
      rw [if_neg h1]
      decide
    · by_cases h3 : c = '>'
      · subst h3
        unfold attrEscChar
        rw [if_neg h1, if_neg h2]
        decide
      · by_cases h4 : c = '"'
        · subst h4
          unfold attrEscChar
          rw [if_neg h1, if_neg h2, if_neg h3]
          decide
        · by_cases h5 : c = nbspChar
          · subst h5
            unfold attrEscChar
            rw [if_neg h1, if_neg h2, if_neg h3, if_neg h4]
            decide
          · unfold attrEscChar
            rw [if_neg h1, if_neg h2, if_neg h3, if_neg h4, if_neg h5]
            simp [replaceChar, h2, h3, h4, h5]

/-- The five passes of `fixAttribute` compose to `attrEscChar`. -/
theorem fixAttributeL_eq (v : List Char) :
    fixAttributeL v = concatMapC attrEscChar v := by
  unfold fixAttributeL
  rw [replaceChar_eq_concatMapC '&' "&amp;".data v]
  rw [replaceChar_concatMapC, replaceChar_concatMapC, replaceChar_concatMapC,
    replaceChar_concatMapC]
  exact concatMapC_congr attrEsc_chain v

/-! ## C9 — groundwork: entity decoding inverts the escapes -/

set_option maxHeartbeats 1600000 in
theorem decodeEnt_cons_ne (c : Char) (l : List Char) (h : c ≠ '&') :
    decodeEnt (c :: l) = c :: decodeEnt l := by
  rw [decodeEnt]
  all_goals exact fun _ hc _ => h hc

theorem decodeEnt_amp (l : List Char) :
    decodeEnt ('&' :: 'a' :: 'm' :: 'p' :: ';' :: l) = '&' :: decodeEnt l := rfl

theorem decodeEnt_lt (l : List Char) :
    decodeEnt ('&' :: 'l' :: 't' :: ';' :: l) = '<' :: decodeEnt l := rfl

theorem decodeEnt_gt (l : List Char) :
    decodeEnt ('&' :: 'g' :: 't' :: ';' :: l) = '>' :: decodeEnt l := rfl

theorem decodeEnt_quot (l : List Char) :
    decodeEnt ('&' :: 'q' :: 'u' :: 'o' :: 't' :: ';' :: l)
      = '"' :: decodeEnt l := rfl

theorem decodeEnt_nbsp (l : List Char) :
    decodeEnt ('&' :: '#' :: '1' :: '6' :: '0' :: ';' :: l)
      = nbspChar :: decodeEnt l := rfl

/-- Decoding inverts the text escape on ampersand-free input. -/
theorem decode_textEsc (y : List Char) (h : ∀ ch ∈ y, ch ≠ '&') :
    decodeEnt (concatMapC textEscChar y) = y := by
  induction y with
  | nil => rfl
  | cons c rest ih =>
    have hrest := ih fun ch hch => h ch (List.mem_cons_of_mem _ hch)
    rw [concatMapC]
    by_cases h1 : c = '<'
    · subst h1
      rw [show textEscChar '<' = "&lt;".data from rfl]
      simp only [List.cons_append, List.nil_append]
      rw [decodeEnt_lt, hrest]
    · by_cases h2 : c = '>'
      · subst h2
        rw [show textEscChar '>' = "&gt;".data from rfl]
        simp only [List.cons_append, List.nil_append]
        rw [decodeEnt_gt, hrest]
      · by_cases h3 : c = nbspChar
        · subst h3
          rw [show textEscChar nbspChar = "&#160;".data from rfl]
          simp only [List.cons_append, List.nil_append]
          rw [decodeEnt_nbsp, hrest]
        · rw [show textEscChar c = [c] from by
            unfold textEscChar; rw [if_neg h1, if_neg h2, if_neg h3]]
          show decodeEnt (c :: _) = _
          rw [decodeEnt_cons_ne c _ (h c (List.mem_cons_self c rest))]
          exact congrArg (List.cons c) hrest

/-- Decoding inverts the attribute escape on arbitrary input. -/
theorem decode_attrEsc (v : List Char) :
    decodeEnt (concatMapC attrEscChar v) = v := by
  induction v with
  | nil => rfl
  | cons c rest ih =>
    rw [concatMapC]
    by_cases h1 : c = '&'
    · subst h1
      rw [show attrEscChar '&' = "&amp;".data from rfl]
      simp only [List.cons_append, List.nil_append]
      rw [decodeEnt_amp, ih]
    · by_cases h2 : c = '<'
      · subst h2
        rw [show attrEscChar '<' = "&lt;".data from by
          unfold attrEscChar; rw [if_neg h1]; rfl]
        simp only [List.cons_append, List.nil_append]
        rw [decodeEnt_lt, ih]
      · by_cases h3 : c = '>'
        · subst h3
          rw [show attrEscChar '>' = "&gt;".data from by
            unfold attrEscChar; rw [if_neg h1, if_neg h2]; rfl]
          simp only [List.cons_append, List.nil_append]
          rw [decodeEnt_gt, ih]
        · by_cases h4 : c = '"'
          · subst h4
            rw [show attrEscChar '"' = "&quot;".data from by
              unfold attrEscChar; rw [if_neg h1, if_neg h2, if_neg h3]; rfl]
            simp only [List.cons_append, List.nil_append]
            rw [decodeEnt_quot, ih]
          · by_cases h5 : c = nbspChar
            · subst h5
              rw [show attrEscChar nbspChar = "&#160;".data from by
                unfold attrEscChar
                rw [if_neg h1, if_neg h2, if_neg h3, if_neg h4]; rfl]
              simp only [List.cons_append, List.nil_append]
              rw [decodeEnt_nbsp, ih]
            · rw [show attrEscChar c = [c] from by
                unfold attrEscChar
                rw [if_neg h1, if_neg h2, if_neg h3, if_neg h4, if_neg h5]]
              show decodeEnt (c :: _) = _
              rw [decodeEnt_cons_ne c _ h1]
              exact congrArg (List.cons c) ih

/-! ## C9 — groundwork: character sets of the escape outputs -/

theorem textEscChar_ne_nil (c : Char) : textEscChar c ≠ [] := by
  unfold textEscChar
  by_cases h1 : c = '<'
  · rw [if_pos h1]; decide
  · rw [if_neg h1]
    by_cases h2 : c = '>'
    · rw [if_pos h2]; decide
    · rw [if_neg h2]
      by_cases h3 : c = nbspChar
      · rw [if_pos h3]; decide
      · rw [if_neg h3]; exact List.cons_ne_nil c []

theorem textEscChar_no_lt (c x : Char) (hx : x ∈ textEscChar c) : x ≠ '<' := by
  unfold textEscChar at hx
  by_cases h1 : c = '<'
  · rw [if_pos h1, show "&lt;".data = ['&', 'l', 't', ';'] from rfl] at hx
    fin_cases hx <;> decide
  · rw [if_neg h1] at hx
    by_cases h2 : c = '>'
    · rw [if_pos h2, show "&gt;".data = ['&', 'g', 't', ';'] from rfl] at hx
      fin_cases hx <;> decide
    · rw [if_neg h2] at hx
      by_cases h3 : c = nbspChar
      · rw [if_pos h3,
          show "&#160;".data = ['&', '#', '1', '6', '0', ';'] from rfl] at hx
        fin_cases hx <;> decide
      · rw [if_neg h3] at hx
        rcases List.mem_singleton.mp hx with rfl
        intro hc
        exact h1 hc

theorem attrEscChar_no_quot (c x : Char) (hx : x ∈ attrEscChar c) : x ≠ '"' := by
  unfold attrEscChar at hx
  by_cases h1 : c = '&'
  · rw [if_pos h1, show "&amp;".data = ['&', 'a', 'm', 'p', ';'] from rfl] at hx
    fin_cases hx <;> decide
  · rw [if_neg h1] at hx
    by_cases h2 : c = '<'
    · rw [if_pos h2, show "&lt;".data = ['&', 'l', 't', ';'] from rfl] at hx
      fin_cases hx <;> decide
    · rw [if_neg h2] at hx
      by_cases h3 : c = '>'
      · rw [if_pos h3, show "&gt;".data = ['&', 'g', 't', ';'] from rfl] at hx
        fin_cases hx <;> decide
      · rw [if_neg h3] at hx
        by_cases h4 : c = '"'
        · rw [if_pos h4,
            show "&quot;".data = ['&', 'q', 'u', 'o', 't', ';'] from rfl] at hx
          fin_cases hx <;> decide
        · rw [if_neg h4] at hx
          by_cases h5 : c = nbspChar
          · rw [if_pos h5,
              show "&#160;".data = ['&', '#', '1', '6', '0', ';'] from rfl] at hx
            fin_cases hx <;> decide
          · rw [if_neg h5] at hx
            rcases List.mem_singleton.mp hx with rfl
            intro hc
            exact h4 hc

theorem mem_concatMapC {f : Char → List Char} {x : Char} :
    ∀ {l : List Char}, x ∈ concatMapC f l → ∃ c, c ∈ l ∧ x ∈ f c := by
  intro l
  induction l with
  | nil => intro h; cases h
  | cons c rest ih =>
    intro h
    rw [concatMapC] at h
    rcases List.mem_append.mp h with h' | h'
    · exact ⟨c, List.mem_cons_self c rest, h'⟩
    · rcases ih h' with ⟨c', hc', hx'⟩
      exact ⟨c', List.mem_cons_of_mem _ hc', hx'⟩

theorem collapseNL_ne_nil {d : List Char} (h : d ≠ []) : collapseNL d ≠ [] := by
  match d with
  | [] => exact absurd rfl h
  | c :: rest =>
    by_cases hc : c = '\n'
    · subst hc
      rw [collapseNL, collapseNLAux]
      exact List.cons_ne_nil _ _
    · rw [collapseNL]
      rw [show collapseNLAux false (c :: rest) = c :: collapseNLAux false rest from by
        rw [collapseNLAux.eq_def]
        simp [hc]]
      exact List.cons_ne_nil _ _

theorem collapseNLAux_idem (l : List Char) :
    ∀ b, collapseNLAux b (collapseNLAux b l) = collapseNLAux b l := by
  induction l with
  | nil => intro b; cases b <;> rfl
  | cons c rest ih =>
    intro b
    by_cases hc : c = '\n'
    · subst hc
      cases b with
      | true => rw [collapseNLAux, ih true]
      | false =>
        rw [collapseNLAux, collapseNLAux]
        have h2 : collapseNLAux true (collapseNLAux true rest)
            = collapseNLAux true rest := ih true
        rw [h2]
    · have hstep : ∀ b' l', collapseNLAux b' (c :: l') = c :: collapseNLAux false l' := by
        intro b' l'
        cases b' <;> · rw [collapseNLAux.eq_def]; simp [hc]
      rw [hstep b rest, hstep b (collapseNLAux false rest), ih false]

theorem collapseNL_idem (l : List Char) :
    collapseNL (collapseNL l) = collapseNL l := collapseNLAux_idem l false

/-! ## C9 — groundwork: scanning a satisfying prefix -/

/-- A list is empty or begins with a character failing `p`. -/
def headStop (p : Char → Bool) (b : List Char) : Prop :=
  b = [] ∨ ∃ y t, b = y :: t ∧ p y = false

theorem takeWhile_append_all {p : Char → Bool} :
    ∀ (a b : List Char), (∀ x ∈ a, p x = true) → headStop p b →
      (a ++ b).takeWhile p = a ∧ (a ++ b).dropWhile p = b := by
  intro a
  induction a with
  | nil =>
    intro b _ hb
    rcases hb with rfl | ⟨y, t, rfl, hy⟩
    · exact ⟨rfl, rfl⟩
    · constructor
      · rw [List.nil_append, List.takeWhile_cons, hy]
        rfl
      · rw [List.nil_append, List.dropWhile_cons, hy]
        rfl
  | cons c a' ih =>
    intro b ha hb
    have hc : p c = true := ha c (List.mem_cons_self c a')
    have hrest := ih b (fun x hx => ha x (List.mem_cons_of_mem _ hx)) hb
    constructor
    · rw [List.cons_append, List.takeWhile_cons, hc]
      simp only [if_true]
      rw [hrest.1]
    · rw [List.cons_append, List.dropWhile_cons, hc]
      simp only [if_true]
      exact hrest.2

/-! ## C9 — cleanliness, normalization and parse weight of trees -/

/-- No text node directly at the head of the list. -/
def headNotText : List DNode → Bool
  | DNode.text _ :: _ => false
  | _ => true

/-- No two adjacent text nodes (adjacent text runs would merge on
reparsing). -/
def noAdjText : List DNode → Bool
  | [] => true
  | DNode.text _ :: rest => headNotText rest && noAdjText rest
  | DNode.elem _ _ _ :: rest => noAdjText rest

mutual

/-- A tree the serializer round-trips: elements carry allow-listed tags
and well-formed attribute names, void elements are childless, children
lists have no adjacent text nodes, and text is non-empty and
ampersand-free. -/
def cleanT : DNode → Bool
  | .text d => !d.data.isEmpty && d.data.all (fun ch => ch ≠ '&')
  | .elem tag attrs cs =>
    allowedElementsL.contains tag &&
    attrs.all (fun a => !a.1.data.isEmpty && a.1.data.all isNameChar) &&
    (if isVoidB tag then cs.isEmpty else noAdjText cs && cleanTL cs)
termination_by structural t => t

def cleanTL : List DNode → Bool
  | [] => true
  | t :: ts => cleanT t && cleanTL ts
termination_by structural l => l

end

mutual

/-- What reparsing the serialization gives back: newline runs in text are
collapsed and void elements lose their (unserialized) children. -/
def normNode : DNode → DNode
  | .text d => .text (String.mk (collapseNL d.data))
  | .elem tag attrs cs =>
    .elem tag attrs (if isVoidB tag then [] else normList cs)
termination_by structural t => t

def normList : List DNode → List DNode
  | [] => []
  | t :: ts => normNode t :: normList ts
termination_by structural l => l

end

mutual

/-- Fuel needed by the parser model to consume a serialized node. -/
def pweight : DNode → Nat
  | .text _ => 1
  | .elem _ attrs cs => attrs.length + pweightL cs + 3
termination_by structural t => t

def pweightL : List DNode → Nat
  | [] => 0
  | t :: ts => pweight t + pweightL ts
termination_by structural l => l

end

/-- Split a true boolean conjunction. -/
theorem bandE {a b : Bool} (h : (a && b) = true) : a = true ∧ b = true := by
  cases a with
  | false => exact absurd (Bool.false_and b ▸ h) Bool.false_ne_true
  | true => exact ⟨rfl, h⟩

/-- Every allow-listed tag is lowercase-stable, non-empty and made of
name characters. -/
theorem allowed_tag_props :
    allowedElementsL.all
      (fun s => (jsToLower s == s) && !s.data.isEmpty
        && s.data.all isNameChar) = true := by
  decide

theorem allowed_tag_of_contains {tag : String}
    (h : allowedElementsL.contains tag = true) :
    jsToLower tag = tag ∧ tag.data ≠ [] ∧ ∀ x ∈ tag.data, isNameChar x = true := by
  have hmem : tag ∈ allowedElementsL := by simpa using h
  have hall := List.all_eq_true.mp allowed_tag_props tag hmem
  have h1 := (bandE (bandE hall).1).1
  have h2 := (bandE (bandE hall).1).2
  have h3 := (bandE hall).2
  refine ⟨eq_of_beq h1, ?_, ?_⟩
  · intro hnil
    rw [hnil] at h2
    exact absurd h2 (by decide)
  · intro x hx
    exact List.all_eq_true.mp h3 x hx


mutual

/-- Serialization does not see the normalization: collapsed text
serializes like the original (collapse is idempotent) and void children
were never emitted. -/
theorem processNode_norm (t : DNode) (h : cleanT t = true) :
    processNode (normNode t) = processNode t := by
  cases t with
  | text d =>
    rw [normNode, processNode, processNode]
    unfold fixText
    apply congrArg
    show fixTextL (collapseNL d.data) = fixTextL d.data
    unfold fixTextL
    rw [show collapseNL (collapseNL d.data) = collapseNL d.data from
      collapseNL_idem d.data]
  | elem tag attrs cs =>
    rw [normNode, processNode, processNode]
    rw [cleanT] at h
    have hct := (bandE (bandE h).1).1
    rcases allowed_tag_of_contains hct with ⟨hl, _, _⟩
    by_cases hv : isVoidB (jsToLower tag)
    · rw [if_pos hv, if_pos hv]
    · have hv2 : isVoidB tag = false := by
        rw [← hl]
        cases hx : isVoidB (jsToLower tag) with
        | false => rfl
        | true => exact absurd hx hv
      rw [if_neg hv, if_neg hv, hv2, if_neg Bool.false_ne_true]
      have h3 := (bandE h).2
      rw [hv2, if_neg Bool.false_ne_true] at h3
      rw [processChildren_norm cs (bandE h3).2]
termination_by structural t

theorem processChildren_norm (ts : List DNode) (h : cleanTL ts = true) :
    processChildren (normList ts) = processChildren ts := by
  cases ts with
  | nil => rfl
  | cons t rest =>
    rw [normList, processChildren, processChildren]
    rw [cleanTL] at h
    rw [processNode_norm t (bandE h).1,
      processChildren_norm rest (bandE h).2]
termination_by structural ts

end

/-! ## C9 — the serialized attribute list, character by character -/

theorem strFoldl_data (l : List String) : ∀ acc : String,
    (l.foldl (· ++ ·) acc).data = acc.data ++ (l.map String.data).flatten := by
  induction l with
  | nil => intro acc; simp
  | cons x xs ih =>
    intro acc
    rw [List.foldl_cons, ih]
    simp

theorem attrsString_data_cons (a : String × String) (as : List (String × String)) :
    (attrsString (a :: as)).data = (attrChunk a).data ++ (attrsString as).data := by
  unfold attrsString String.join
  rw [List.map_cons, strFoldl_data, strFoldl_data]
  simp

theorem attrChunk_data (n v : String) :
    (attrChunk (n, v)).data
      = ' ' :: (n.data ++ '=' :: '"' :: (fixAttributeL v.data ++ ['"'])) := by
  unfold attrChunk
  simp [String.data_append, fixAttribute]

/-- Each serialized attribute contributes at least one character. -/
theorem attrs_length_le (attrs : List (String × String)) :
    attrs.length ≤ (attrsString attrs).data.length := by
  induction attrs with
  | nil => simp
  | cons a as ih =>
    rw [attrsString_data_cons]
    rcases a with ⟨n, v⟩
    rw [attrChunk_data]
    simp only [List.length_cons, List.length_append, List.cons_append]
    omega

/-! ## C9 — the serialized output is at least as long as the parse weight -/

theorem fixTextL_ne_nil {d : List Char} (hne : d ≠ [])
    (hamp : ∀ ch ∈ d, ch ≠ '&') : fixTextL d ≠ [] := by
  rw [fixTextL_no_amp d hamp]
  have hcn := collapseNL_ne_nil hne
  cases hcl : collapseNL d with
  | nil => exact absurd hcl hcn
  | cons e es =>
    rw [concatMapC]
    cases hf : textEscChar e with
    | nil => exact absurd hf (textEscChar_ne_nil e)
    | cons y ys => simp

mutual

theorem pweight_le (t : DNode) (h : cleanT t = true) :
    pweight t ≤ (processNode t).data.length := by
  cases t with
  | text d =>
    rw [pweight, processNode]
    rw [cleanT] at h
    have hne : d.data ≠ [] := by
      intro hnil
      have := (bandE h).1
      rw [hnil] at this
      exact absurd this (by decide)
    have hamp : ∀ ch ∈ d.data, ch ≠ '&' := by
      intro ch hch
      have := List.all_eq_true.mp (bandE h).2 ch hch
      simpa using this
    have : fixTextL d.data ≠ [] := fixTextL_ne_nil hne hamp
    show 1 ≤ (fixTextL d.data).length
    have := List.length_pos.mpr this
    omega
  | elem tag attrs cs =>
    rw [pweight, processNode]
    rw [cleanT] at h
    have hct := (bandE (bandE h).1).1
    rcases allowed_tag_of_contains hct with ⟨hl, hne, _⟩
    have htag : 1 ≤ tag.data.length := by
      have := List.length_pos.mpr hne
      omega
    have hif := (bandE h).2
    by_cases hv : isVoidB (jsToLower tag)
    · rw [if_pos hv]
      have hv2 : isVoidB tag = true := by rw [← hl]; exact hv
      rw [hv2, if_pos rfl] at hif
      have hcs : cs = [] := by
        cases cs with
        | nil => rfl
        | cons x xs => simp at hif
      subst hcs
      rw [hl]
      have ha := attrs_length_le attrs
      simp only [String.data_append, List.length_append, pweightL,
        List.length_cons, List.length_nil]
      omega
    · rw [if_neg hv]
      have hv2 : isVoidB tag = false := by
        rw [← hl]
        cases hx : isVoidB (jsToLower tag) with
        | false => rfl
        | true => exact absurd hx hv
      rw [hv2, if_neg Bool.false_ne_true] at hif
      have hcl := pweightL_le cs (bandE hif).2
      have ha := attrs_length_le attrs
      rw [hl]
      simp only [String.data_append, List.length_append,
        List.length_cons, List.length_nil]
      omega
termination_by structural t

theorem pweightL_le (ts : List DNode) (h : cleanTL ts = true) :
    pweightL ts ≤ (processChildren ts).data.length := by
  cases ts with
  | nil => rw [pweightL]; exact Nat.zero_le _
  | cons t rest =>
    rw [pweightL, processChildren]
    rw [cleanTL] at h
    have h1 := pweight_le t (bandE h).1
    have h2 := pweightL_le rest (bandE h).2
    simp only [String.data_append, List.length_append]
    omega
termination_by structural ts

end

/-! ## C9 — helpers for stepping the parser model -/

theorem startsSlash_false {c : Char} (t : List Char) (h : c ≠ '/') :
    startsSlash (c :: t) = false := by
  rw [startsSlash.eq_def]
  split
  · next heq =>
    exfalso
    injection heq with h1 _
    exact h h1
  · rfl

theorem startsSlashGt_false {c : Char} (t : List Char) (h : c ≠ '/') :
    startsSlashGt (c :: t) = false := by
  rw [startsSlashGt.eq_def]
  split
  · next heq =>
    exfalso
    injection heq with h1 _
    exact h h1
  · rfl

theorem fixAttributeL_no_quot (v : List Char) :
    ∀ x ∈ fixAttributeL v, x ≠ '"' := by
  intro x hx
  rw [fixAttributeL_eq] at hx
  rcases mem_concatMapC hx with ⟨c, _, hc⟩
  exact attrEscChar_no_quot c x hc

theorem decodeEnt_fixAttributeL (v : List Char) :
    decodeEnt (fixAttributeL v) = v := by
  rw [fixAttributeL_eq]
  exact decode_attrEsc v

theorem fixTextL_no_lt {d : List Char} (hamp : ∀ ch ∈ d, ch ≠ '&') :
    ∀ x ∈ fixTextL d, x ≠ '<' := by
  intro x hx
  rw [fixTextL_no_amp d hamp] at hx
  rcases mem_concatMapC hx with ⟨c, _, hc⟩
  exact textEscChar_no_lt c x hc

theorem decodeEnt_fixTextL {d : List Char} (hamp : ∀ ch ∈ d, ch ≠ '&') :
    decodeEnt (fixTextL d) = collapseNL d := by
  rw [fixTextL_no_amp d hamp]
  exact decode_textEsc _ fun ch hch => hamp ch (collapseNL_subset hch)

/-- The attribute scanner of the parser model reads back exactly the
attribute list the serializer emitted, decoding each value, and reports
self-closing according to the tail (`>` vs ` />`). -/
theorem parseAttrs_roundtrip :
    ∀ (attrs : List (String × String)) (f : Nat) (b : Bool) (r : List Char),
      attrs.all (fun a => !a.1.data.isEmpty && a.1.data.all isNameChar) = true →
      attrs.length + 1 ≤ f →
      parseAttrsF f ((attrsString attrs).data
          ++ (if b then ' ' :: '/' :: '>' :: r else '>' :: r))
        = some (attrs, b, r) := by
  intro attrs
  induction attrs with
  | nil =>
    intro f b r _ hf
    obtain ⟨f', rfl⟩ : ∃ f', f = Nat.succ f' := ⟨f - 1, by omega⟩
    rw [show (attrsString []).data = [] from rfl, List.nil_append]
    cases b
    · rfl
    · rfl
  | cons a as ih =>
    intro f b r hok hf
    obtain ⟨n, v⟩ := a
    obtain ⟨f', rfl⟩ : ∃ f', f = Nat.succ f' := ⟨f - 1, by omega⟩
    have hokn := (bandE (List.all_eq_true.mp hok (n, v) (List.mem_cons_self _ _)))
    have hokas : as.all (fun a => !a.1.data.isEmpty && a.1.data.all isNameChar) = true := by
      rw [List.all_eq_true]
      intro x hx
      exact List.all_eq_true.mp hok x (List.mem_cons_of_mem _ hx)
    obtain ⟨nc, nt, hn⟩ : ∃ nc nt, n.data = nc :: nt := by
      cases hd : n.data with
      | nil => rw [hd] at hokn; exact absurd hokn.1 (by decide)
      | cons nc nt => exact ⟨nc, nt, rfl⟩
    have hname : ∀ x ∈ n.data, isNameChar x = true :=
      fun x hx => List.all_eq_true.mp hokn.2 x hx
    have hncn : isNameChar nc = true := hname nc (by rw [hn]; exact List.mem_cons_self _ _)
    have hslash : nc ≠ '/' := by
      intro hc
      rw [hc] at hncn
      exact absurd hncn (by decide)
    have hsg : ∀ X : List Char, startsSlashGt (n.data ++ X) = false := by
      intro X
      rw [hn, List.cons_append]
      exact startsSlashGt_false _ hslash
    have hemp : n.data.isEmpty = false := by rw [hn]; rfl
    rw [attrsString_data_cons, attrChunk_data]
    simp only [List.cons_append, List.nil_append, List.append_assoc]
    rw [parseAttrsF]
    rw [hsg]
    simp only [Bool.false_eq_true, if_false]
    have htw := takeWhile_append_all n.data
      ('=' :: '"' :: (fixAttributeL v.data ++ '"' :: ((attrsString as).data
        ++ (if b then ' ' :: '/' :: '>' :: r else '>' :: r))))
      hname (Or.inr ⟨'=', _, rfl, by decide⟩)
    rw [htw.1, htw.2, hemp]
    simp only [Bool.false_eq_true, if_false]
    have hq : ∀ x ∈ fixAttributeL v.data, (decide (x ≠ '"')) = true := by
      intro x hx
      exact decide_eq_true (fixAttributeL_no_quot v.data x hx)
    have htw2 := takeWhile_append_all (fixAttributeL v.data)
      ('"' :: ((attrsString as).data
        ++ (if b then ' ' :: '/' :: '>' :: r else '>' :: r)))
      hq (Or.inr ⟨'"', _, rfl, by decide⟩)
    rw [htw2.1, htw2.2]
    show Option.map
        (fun p => ((String.mk n.data,
            String.mk (decodeEnt (fixAttributeL v.data))) :: p.1, p.2.1, p.2.2))
        (parseAttrsF f' ((attrsString as).data
          ++ (if b then ' ' :: '/' :: '>' :: r else '>' :: r)))
      = some ((n, v) :: as, b, r)
    rw [ih f' b r hokas (by rw [List.length_cons] at hf; omega)]
    rw [decodeEnt_fixAttributeL]
    rfl

theorem startsSlash_append_name {n : List Char} (X : List Char) (hne : n ≠ [])
    (hname : ∀ x ∈ n, isNameChar x = true) : startsSlash (n ++ X) = false := by
  cases n with
  | nil => exact absurd rfl hne
  | cons nc nt =>
    rw [List.cons_append]
    apply startsSlash_false
    intro hc
    have := hname nc (List.mem_cons_self _ _)
    rw [hc] at this
    exact absurd this (by decide)

/-- A serialized element always begins with `<`. -/
theorem processNode_elem_data (tag : String) (attrs : List (String × String))
    (cs : List DNode) :
    ∃ t, (processNode (DNode.elem tag attrs cs)).data = '<' :: t := by
  rw [processNode]
  by_cases hv : isVoidB (jsToLower tag)
  · rw [if_pos hv]
    refine ⟨(jsToLower tag).data ++ ((attrsString attrs).data ++ [' ', '/', '>']), ?_⟩
    simp [String.data_append]
  · rw [if_neg hv]
    refine ⟨(jsToLower tag).data ++ ((attrsString attrs).data
      ++ '>' :: ((processChildren cs).data
        ++ '<' :: '/' :: ((jsToLower tag).data ++ ['>']))), ?_⟩
    simp [String.data_append]

/-- The serialized attribute list followed by a non-name character stops
the name scanner immediately or at its leading space. -/
theorem headStop_attrs (attrs : List (String × String)) (y : Char)
    (t : List Char) (hy : isNameChar y = false) :
    headStop isNameChar ((attrsString attrs).data ++ y :: t) := by
  cases attrs with
  | nil =>
    rw [show (attrsString []).data = [] from rfl, List.nil_append]
    exact Or.inr ⟨y, t, rfl, hy⟩
  | cons a as =>
    rw [attrsString_data_cons]
    obtain ⟨n, v⟩ := a
    rw [attrChunk_data]
    exact Or.inr ⟨' ', n.data ++ '=' :: '"' :: (fixAttributeL v.data
      ++ '"' :: ((attrsString as).data ++ y :: t)), by simp, by decide⟩

/-- The remainder at which the node scanner stops: end of input or a
closing tag. -/
def restStop (rest : List Char) : Prop :=
  rest = [] ∨ ∃ r', rest = '<' :: '/' :: r'

/-- The node scanner of the parser model reads a serialized clean forest
back as its normalization, leaving the stop remainder untouched. -/
theorem parseNodes_roundtrip :
    ∀ (f : Nat) (ts : List DNode) (rest : List Char),
      cleanTL ts = true → noAdjText ts = true → restStop rest →
      pweightL ts + 1 ≤ f →
      parseNodesF f ((processChildren ts).data ++ rest)
        = some (normList ts, rest) := by
  intro f
  induction f with
  | zero => intro ts rest _ _ _ hf; omega
  | succ f' ih =>
    intro ts rest hclean hadj hstop hf
    cases ts with
    | nil =>
      rw [show (processChildren []).data = [] from rfl, List.nil_append,
        normList]
      rcases hstop with rfl | ⟨r', rfl⟩
      · rfl
      · rfl
    | cons t ts' =>
      cases t with
      | text d =>
        rw [cleanTL] at hclean
        have hct := (bandE hclean).1
        have hcts := (bandE hclean).2
        rw [cleanT] at hct
        have hne : d.data ≠ [] := by
          intro hnil
          have h1 := (bandE hct).1
          rw [hnil] at h1
          exact absurd h1 (by decide)
        have hamp : ∀ ch ∈ d.data, ch ≠ '&' := by
          intro ch hch
          have := List.all_eq_true.mp (bandE hct).2 ch hch
          simpa using this
        have hadj2 : headNotText ts' = true ∧ noAdjText ts' = true := by
          rw [noAdjText] at hadj
          exact bandE hadj
        rw [pweightL, pweight] at hf
        rw [processChildren]
        simp only [String.data_append, List.append_assoc]
        rw [show (processNode (DNode.text d)).data = fixTextL d.data from rfl]
        cases hfix : fixTextL d.data with
        | nil => exact absurd hfix (fixTextL_ne_nil hne hamp)
        | cons y ys =>
          have hylt : y ≠ '<' :=
            fixTextL_no_lt hamp y (by rw [hfix]; exact List.mem_cons_self _ _)
          have hstop2 : headStop (fun x => decide (x ≠ '<'))
              ((processChildren ts').data ++ rest) := by
            cases ts' with
            | nil =>
              rw [show (processChildren []).data = [] from rfl, List.nil_append]
              rcases hstop with rfl | ⟨r', rfl⟩
              · exact Or.inl rfl
              · exact Or.inr ⟨'<', '/' :: r', rfl, by decide⟩
            | cons e es =>
              cases e with
              | text d2 =>
                exfalso
                have := hadj2.1
                rw [headNotText] at this
                exact absurd this (by decide)
              | elem tag2 a2 c2 =>
                rw [processChildren]
                rcases processNode_elem_data tag2 a2 c2 with ⟨t2, ht2⟩
                simp only [String.data_append, List.append_assoc]
                rw [ht2, List.cons_append]
                exact Or.inr ⟨'<', t2 ++ ((processChildren es).data ++ rest),
                  rfl, by decide⟩
          have htw := takeWhile_append_all (fixTextL d.data)
            ((processChildren ts').data ++ rest)
            (fun x hx => decide_eq_true (fixTextL_no_lt hamp x hx))
            hstop2
          rw [hfix] at htw
          rw [List.cons_append] at htw
          rw [List.cons_append, parseNodesF, if_neg hylt]
          rw [htw.1, htw.2]
          rw [ih ts' rest hcts hadj2.2 hstop (by omega)]
          show some (DNode.text (String.mk (decodeEnt (y :: ys)))
              :: normList ts', rest)
            = some (normList (DNode.text d :: ts'), rest)
          rw [← hfix, decodeEnt_fixTextL hamp, normList, normNode]
      | elem tag attrs cs =>
        rw [cleanTL] at hclean
        have hct := (bandE hclean).1
        have hcts := (bandE hclean).2
        rw [cleanT] at hct
        have hcontains := (bandE (bandE hct).1).1
        have hattrs := (bandE (bandE hct).1).2
        have hifc := (bandE hct).2
        rcases allowed_tag_of_contains hcontains with ⟨hl, htne, htname⟩
        have hadj2 : noAdjText ts' = true := by rw [noAdjText] at hadj; exact hadj
        have hemp : tag.data.isEmpty = false := by
          cases hd : tag.data with
          | nil => exact absurd hd htne
          | cons a b => simp [hd]
        rw [pweightL, pweight] at hf
        rw [processChildren, processNode, hl]
        by_cases hv : isVoidB tag = true
        · rw [if_pos hv]
          have hcs : cs = [] := by
            rw [hv, if_pos rfl] at hifc
            cases cs with
            | nil => rfl
            | cons x xs => simp at hifc
          subst hcs
          simp only [String.data_append, List.append_assoc, List.cons_append,
            List.nil_append,
            show ("<".data : List Char) = ['<'] from rfl,
            show (" />".data : List Char) = [' ', '/', '>'] from rfl]
          rw [parseNodesF, if_pos rfl]
          rw [startsSlash_append_name _ htne htname]
          simp only [Bool.false_eq_true, if_false]
          have htw := takeWhile_append_all tag.data
            ((attrsString attrs).data
              ++ ' ' :: '/' :: '>' :: ((processChildren ts').data ++ rest))
            htname
            (headStop_attrs attrs ' ' _ (by decide))
          rw [htw.1, htw.2, hemp]
          simp only [Bool.false_eq_true, if_false]
          have hpa := parseAttrs_roundtrip attrs (Nat.succ f') true
            ((processChildren ts').data ++ rest) hattrs (by omega)
          rw [if_pos rfl] at hpa
          rw [hpa]
          dsimp only
          rw [Bool.true_or, if_pos rfl]
          rw [ih ts' rest hcts hadj2 hstop (by omega)]
          show some (DNode.elem (String.mk tag.data) attrs [] :: normList ts', rest)
            = some (normList (DNode.elem tag attrs [] :: ts'), rest)
          rw [normList, normNode, hv, if_pos rfl]
        · have hv2 : isVoidB tag = false := by
            cases hx : isVoidB tag with
            | false => rfl
            | true => exact absurd hx hv
          rw [hv2, if_neg Bool.false_ne_true] at hifc
          have hcsadj := (bandE hifc).1
          have hcscl := (bandE hifc).2
          rw [if_neg (by rw [hv2]; exact Bool.false_ne_true)]
          simp only [String.data_append, List.append_assoc, List.cons_append,
            List.nil_append,
            show ("<".data : List Char) = ['<'] from rfl,
            show (">".data : List Char) = ['>'] from rfl,
            show ("</".data : List Char) = ['<', '/'] from rfl]
          rw [parseNodesF, if_pos rfl]
          rw [startsSlash_append_name _ htne htname]
          simp only [Bool.false_eq_true, if_false]
          have htw := takeWhile_append_all tag.data
            ((attrsString attrs).data
              ++ '>' :: ((processChildren cs).data
                ++ '<' :: '/' :: (tag.data
                  ++ '>' :: ((processChildren ts').data ++ rest))))
            htname
            (headStop_attrs attrs '>' _ (by decide))
          rw [htw.1, htw.2, hemp]
          simp only [Bool.false_eq_true, if_false]
          have hpa := parseAttrs_roundtrip attrs (Nat.succ f') false
            ((processChildren cs).data
              ++ '<' :: '/' :: (tag.data
                ++ '>' :: ((processChildren ts').data ++ rest)))
            hattrs (by omega)
          rw [if_neg (by exact Bool.false_ne_true)] at hpa
          rw [hpa]
          dsimp only
          rw [Bool.false_or]
          rw [show isVoidB (String.mk tag.data) = isVoidB tag from rfl, hv2,
            if_neg Bool.false_ne_true]
          rw [ih cs ('<' :: '/' :: (tag.data
              ++ '>' :: ((processChildren ts').data ++ rest)))
            hcscl hcsadj
            (Or.inr ⟨tag.data ++ '>' :: ((processChildren ts').data ++ rest), rfl⟩)
            (by omega)]
          have htw3 := takeWhile_append_all tag.data
            ('>' :: ((processChildren ts').data ++ rest))
            htname (Or.inr ⟨'>', (processChildren ts').data ++ rest, rfl, by decide⟩)
          show (if List.takeWhile isNameChar
                (tag.data ++ '>' :: ((processChildren ts').data ++ rest)) = tag.data then
              match List.dropWhile isNameChar
                  (tag.data ++ '>' :: ((processChildren ts').data ++ rest)) with
              | '>' :: r4 =>
                match parseNodesF f' r4 with
                | none => none
                | some (ns, r) =>
                  some (DNode.elem (String.mk tag.data) attrs (normList cs) :: ns, r)
              | _ => none
            else none)
            = some (normList (DNode.elem tag attrs cs :: ts'), rest)
          rw [htw3.1, if_pos rfl, htw3.2]
          show (match parseNodesF f' ((processChildren ts').data ++ rest) with
              | none => none
              | some (ns, r) =>
                some (DNode.elem (String.mk tag.data) attrs (normList cs) :: ns, r))
            = some (normList (DNode.elem tag attrs cs :: ts'), rest)
          rw [ih ts' rest hcts hadj2 hstop (by omega)]
          show some (DNode.elem (String.mk tag.data) attrs (normList cs)
              :: normList ts', rest)
            = some (normList (DNode.elem tag attrs cs :: ts'), rest)
          rw [normList, normNode, hv2, if_neg Bool.false_ne_true]

/-- Reparsing the serialization of a clean tree yields exactly its
normalization. -/
theorem parseFragment_processNode (t : DNode) (h : cleanT t = true) :
    parseFragment (processNode t) = some [normNode t] := by
  have hcl : cleanTL [t] = true := by
    rw [cleanTL, h, cleanTL]
    rfl
  have hadj : noAdjText [t] = true := by
    cases t with
    | text d => rfl
    | elem tag attrs cs => rfl
  have hfuel : pweightL [t] + 1 ≤ (processNode t).data.length + 1 := by
    rw [pweightL, pweightL]
    have := pweight_le t h
    omega
  have hb := parseNodes_roundtrip ((processNode t).data.length + 1) [t] []
    hcl hadj (Or.inl rfl) hfuel
  have hdata : (processChildren [t]).data ++ [] = (processNode t).data := by
    rw [processChildren, processChildren]
    simp [String.data_append]
  rw [hdata] at hb
  unfold parseFragment
  rw [hb]
  show some (normList [t]) = some [normNode t]
  rw [normList, normList]

/-- C9: the HTML-to-XHTML serializer is idempotent on inputs that parse to
a single clean root — a tree built purely from allow-listed elements,
well-formed attribute names, childless void elements, no adjacent text
runs, and non-empty ampersand-free (already-escaped) text.  Applying
`convertHtmlToXhtml` to its own output returns byte-identical text.  (For
inputs with several top-level nodes the claim fails, see the
counterexample: the newline join reparses as an extra text node.) -/
theorem convertHtmlToXhtml_idempotent_singleRoot (s : String) (t : DNode)
    (hparse : parseFragment s = some [t]) (hclean : cleanT t = true) :
    ∃ out, convertHtmlToXhtml s = some out ∧ convertHtmlToXhtml out = some out := by
  refine ⟨processNode t, ?_, ?_⟩
  · unfold convertHtmlToXhtml
    rw [hparse]
    show some (convertTreeList [t]) = some (processNode t)
    rfl
  · unfold convertHtmlToXhtml
    rw [parseFragment_processNode t hclean]
    show some (convertTreeList [normNode t]) = some (processNode t)
    rw [show convertTreeList [normNode t] = processNode (normNode t) from rfl,
      processNode_norm t hclean]

/-- C9 counterexample: an input of two adjacent allow-listed paragraphs
with plain text is NOT a fixed point of a second application — the
newline the serializer puts between top-level nodes reparses as a text
node and is serialized with two more newlines around it. -/
theorem convertHtmlToXhtml_idempotent_counterexample :
    convertHtmlToXhtml "<p>a</p><p>b</p>" = some "<p>a</p>\n<p>b</p>" ∧
    convertHtmlToXhtml "<p>a</p>\n<p>b</p>" = some "<p>a</p>\n\n\n<p>b</p>" ∧
    ("<p>a</p>\n<p>b</p>" : String) ≠ "<p>a</p>\n\n\n<p>b</p>" :=
  ⟨by rfl, by rfl, by decide⟩

theorem convertHtmlToXhtml_idempotent_witness :
    parseFragment "<p>hello</p>" = some [DNode.elem "p" [] [DNode.text "hello"]] ∧
    cleanT (DNode.elem "p" [] [DNode.text "hello"]) = true ∧
    ∃ out, convertHtmlToXhtml "<p>hello</p>" = some out ∧
      convertHtmlToXhtml out = some out :=
  ⟨by rfl, by rfl, convertHtmlToXhtml_idempotent_singleRoot "<p>hello</p>"
    (DNode.elem "p" [] [DNode.text "hello"]) (by rfl) (by rfl)⟩
